import Mathlib

/-!
Verification of the MainMemory memcache engine against its specification.

The definitions below are a shallow embedding of the C sources:
* `src/memcache/memcache.c` — hash, entry, table, command processing,
  command FIFO, transmission (the single-table memcache engine);
* `memcache/table.c` — the partitioned table's size check
  (`mc_table_check_size`, `mc_table_reserve_entries`);
* `src/base/ring.h` — the MPMC ring buffer operations.

Bytes are modelled as `Char` (the sources manipulate `char` data, and all
relevant comparisons are byte-wise).  Machine integers are `Nat` with an
explicit `% 2^32` / `% 2^64` at the operations where the C code can wrap.
The segmented receive buffer is modelled as a list of segments
(`List (List Char)`), and the transmit buffer (whose append / printf /
splice helpers live in the external buffer module) as a byte list to which
encodings are appended in program order.
-/

/-- Helper: decimal rendering of an unsigned integer, the model of the
`%u` / `%llu` conversions used by `mm_buffer_printf`. -/
def mmDec (n : Nat) : List Char := (Nat.repr n).toList

/-- Model of `mc_hash`: FNV-1a, 32 bit.  Each step xors in one byte and
multiplies by the FNV prime with `uint32_t` wrap-around. -/
def mcHash (data : List Char) : Nat :=
  data.foldl (fun h c => ((h ^^^ c.toNat) * 0x01000193) % 2 ^ 32) 0x811c9dc5

/-- Model of `struct mc_entry`.  The `key_len`/`value_len` fields are the
lengths of the `key`/`value` lists; the reference count is tracked in a
separate model dedicated to entry lifetime (see `RCState` below). -/
structure MCEntry where
  key : List Char
  value : List Char
  flags : Nat
  cas : Nat
  deriving Repr, DecidableEq

/-- Model of `struct mc_table` (memcache.c): bucket array of entry chains,
with `mask`, `size`, `used` and the `striding` flag.  The over-reserved
mmap'd bucket array is modelled as a total function from bucket index to
chain. -/
structure MCTable where
  mask : Nat
  size : Nat
  used : Nat
  striding : Bool
  nentries : Nat
  table : Nat → List MCEntry

/-- Constant `MC_TABLE_STRIDE`. -/
def mcTableStrideN : Nat := 64

/-- Constant `MC_TABLE_SIZE_MIN`. -/
def mcTableSizeMin : Nat := 4 * 1024

/-- Constant `MC_TABLE_SIZE_MAX` (the `#else` branch of the `#if 0`). -/
def mcTableSizeMax : Nat := 512 * 1024 * 1024

/-- Model of `mc_table_index`: `index = h & mask`, and if `index >= used`
the index is masked down by `mask >> 1`. -/
def mcTableIndex (t : MCTable) (h : Nat) : Nat :=
  let index := h &&& t.mask
  if index ≥ t.used then index &&& (t.mask >>> 1) else index

/-- Model of `mc_table_key_index`. -/
def mcTableKeyIndex (t : MCTable) (key : List Char) : Nat :=
  mcTableIndex t (mcHash key)

/-- Model of `mc_table_is_full`: at the hard maximum with `used == size`
the table is never reported full; otherwise full means
`nentries > size * 4`. -/
def mcTableIsFull (t : MCTable) : Bool :=
  if t.size = mcTableSizeMax ∧ t.used = t.size then false
  else decide (t.nentries > t.size * 4)

/-- Model of `mc_table_expand`: doubles (in general: grows) the allocated
area and updates `size` and `mask`.  The `mmap` plumbing has no
observable effect at this level. -/
def mcTableExpand (t : MCTable) (size : Nat) : MCTable :=
  { t with size := size, mask := size - 1 }

/-- Model of `mc_table_lookup`: scan the chain of the given bucket for the
first entry with a matching key (`key_len` check plus `memcmp`). -/
def mcTableLookup (t : MCTable) (index : Nat) (key : List Char) : Option MCEntry :=
  (t.table index).find? (fun e => decide (e.key = key))

/-- Helper for `mc_table_remove`: remove the first key match from a chain,
returning the removed entry (if any) and the remaining chain. -/
def mcRemoveFirst (key : List Char) : List MCEntry → Option MCEntry × List MCEntry
  | [] => (Option.none, [])
  | e :: rest =>
    if e.key = key then (some e, rest)
    else
      let r := mcRemoveFirst key rest
      (r.1, e :: r.2)

/-- Model of `mc_table_remove`: unlink the first matching entry of the
bucket's chain and decrement `nentries`; return `NULL` (`none`) and leave
the table unchanged when there is no match. -/
def mcTableRemove (t : MCTable) (index : Nat) (key : List Char) :
    Option MCEntry × MCTable :=
  match mcRemoveFirst key (t.table index) with
  | (Option.none, _) => (Option.none, t)
  | (some e, rest) =>
    (some e,
     { t with table := fun i => if i = index then rest else t.table i,
              nentries := t.nentries - 1 })

/-- Model of `mc_table_insert`: push the entry on the bucket's chain,
increment `nentries`, and if the table is not striding but has become
full, set the `striding` flag (and post `mc_table_stride_routine`, which
runs later as separate work). -/
def mcTableInsert (t : MCTable) (index : Nat) (entry : MCEntry) : MCTable :=
  let t := { t with table := fun i => if i = index then entry :: t.table i else t.table i,
                    nentries := t.nentries + 1 }
  if !t.striding && mcTableIsFull t then { t with striding := true } else t

/-- Helper for `mc_table_stride`: split one chain between its `source`
bucket and the corresponding target bucket.  The C loop walks the chain
and pushes each entry on one of two lists, so each half ends up reversed;
the fold reproduces that exactly.  The first component is `s_entries`
(hash-index equal to `source`), the second `t_entries`. -/
def mcSplitChain (mask source : Nat) (chain : List MCEntry) :
    List MCEntry × List MCEntry :=
  chain.foldl
    (fun acc e =>
      if mcHash e.key &&& mask = source then (e :: acc.1, acc.2)
      else (acc.1, e :: acc.2))
    ([], [])

/-- Iteration of the `for (count = 0; count < MC_TABLE_STRIDE; count++)`
loop of `mc_table_stride`: split the chain at `source`, store the two
halves at `source` and `target`, advance both indices. -/
def mcStrideLoop (mask : Nat) (tab : Nat → List MCEntry) (source target : Nat) :
    Nat → (Nat → List MCEntry)
  | 0 => tab
  | count + 1 =>
    let pair := mcSplitChain mask source (tab source)
    mcStrideLoop mask
      (fun i => if i = target then pair.2 else if i = source then pair.1 else tab i)
      (source + 1) (target + 1) count

/-- Model of `mc_table_stride`: split `MC_TABLE_STRIDE` consecutive
buckets starting at `source = used - size/2` and advance `used`. -/
def mcTableStride (t : MCTable) : MCTable :=
  let mask := t.mask
  let target := t.used
  let source := target - t.size / 2
  { t with table := mcStrideLoop mask t.table source target mcTableStrideN,
           used := t.used + mcTableStrideN }

/-- Model of `mc_table_stride_routine` (one stride step): if `used == size`
first double the allocated area and `size`/`mask`, then stride; if the
table is still full the routine re-posts itself (the `striding` flag stays
set), otherwise it clears `striding`. -/
def mcTableStrideRoutine (t : MCTable) : MCTable :=
  let t := if t.used = t.size then mcTableExpand t (t.size * 2) else t
  let t := mcTableStride t
  if mcTableIsFull t then t else { t with striding := false }

/-- Model of `mc_table_init`: reserve the array, expand to
`MC_TABLE_SIZE_MIN` and set `used` to it. -/
def mcTableInit : MCTable :=
  let t : MCTable :=
    { mask := 0, size := 0, used := 0, striding := false, nentries := 0,
      table := fun _ => [] }
  let t := mcTableExpand t mcTableSizeMin
  { t with used := mcTableSizeMin }

/-- Global state of the engine: the table plus the `static uint64_t cas`
counter of `mc_entry_create`. -/
structure MCGlobal where
  table : MCTable
  cas : Nat

/-- Model of `mc_entry_create` combined with `mc_entry_set_key` and the
value copy (`mc_process_value` stitches the payload bytes out of the
receive-buffer segments; at this level the payload is the byte list).
The new entry receives the incremented `uint64_t` stamp.  `flags` is
uninitialised in C (callers assign it); the model zeroes it and the
callers overwrite. -/
def mcEntryCreate (g : MCGlobal) (key value : List Char) : MCGlobal × MCEntry :=
  let cas := (g.cas + 1) % 2 ^ 64
  ({ g with cas := cas }, { key := key, value := value, flags := 0, cas := cas })

/-- Result kinds, from `mc_result_t` and `union mc_result`. -/
inductive MCResult where
  | NONE
  | BLANK
  | REPLY (s : List Char)
  | ENTRY (es : List MCEntry)
  | ENTRY_CAS (es : List MCEntry)
  | VALUE (e : MCEntry)
  | QUIT
  deriving Repr, DecidableEq

/-- Parameters of the `set` command family (`struct mc_set_params`). -/
structure MCSetParams where
  key : List Char
  flags : Nat
  exptime : Nat
  value : List Char
  noreply : Bool

/-- Parameters of `cas` (`struct mc_cas_params`). -/
structure MCCasParams where
  key : List Char
  flags : Nat
  exptime : Nat
  value : List Char
  cas : Nat
  noreply : Bool

/-- Parameters of `incr`/`decr` (`struct mc_inc_params`). -/
structure MCIncParams where
  key : List Char
  value : Nat
  noreply : Bool

/-- Model of `mc_process_set`: remove any existing entry for the key
(unref'd — reference counts live in the `RCState` model), create the new
entry, insert it, and reply `STORED` unless `noreply`. -/
def mcProcessSet (g : MCGlobal) (p : MCSetParams) : MCGlobal × MCResult :=
  let index := mcTableKeyIndex g.table p.key
  let rm := mcTableRemove g.table index p.key
  let created := mcEntryCreate { g with table := rm.2 } p.key p.value
  let newEntry := { created.2 with flags := p.flags }
  let g2 := { created.1 with table := mcTableInsert created.1.table index newEntry }
  (g2, if p.noreply then MCResult.BLANK else MCResult.REPLY ("STORED\r\n".toList))

/-- Model of the lookup loop of `mc_process_get2`: collect (and ref) the
entries found for the requested keys, in order. -/
def mcGetEntries (g : MCGlobal) (keys : List (List Char)) : List MCEntry :=
  keys.filterMap (fun k => mcTableLookup g.table (mcTableKeyIndex g.table k) k)

/-- Model of `mc_process_get` (`mc_process_get2` with `MC_RESULT_ENTRY`). -/
def mcProcessGet (g : MCGlobal) (keys : List (List Char)) : MCGlobal × MCResult :=
  (g, MCResult.ENTRY (mcGetEntries g keys))

/-- Model of `mc_process_gets` (`mc_process_get2` with
`MC_RESULT_ENTRY_CAS`). -/
def mcProcessGets (g : MCGlobal) (keys : List (List Char)) : MCGlobal × MCResult :=
  (g, MCResult.ENTRY_CAS (mcGetEntries g keys))

/-- Model of `mc_process_cas`: look the key up; only when an entry exists
and its stamp equals the request's stamp is it replaced by a freshly
created entry; replies are `STORED` / `EXISTS` / `NOT_FOUND` (or blank
with `noreply`). -/
def mcProcessCas (g : MCGlobal) (p : MCCasParams) : MCGlobal × MCResult :=
  let index := mcTableKeyIndex g.table p.key
  match mcTableLookup g.table index p.key with
  | some oldEntry =>
    if oldEntry.cas = p.cas then
      let rm := mcTableRemove g.table index p.key
      let created := mcEntryCreate { g with table := rm.2 } p.key p.value
      let newEntry := { created.2 with flags := p.flags }
      let g2 := { created.1 with table := mcTableInsert created.1.table index newEntry }
      (g2, if p.noreply then MCResult.BLANK else MCResult.REPLY ("STORED\r\n".toList))
    else
      (g, if p.noreply then MCResult.BLANK else MCResult.REPLY ("EXISTS\r\n".toList))
  | Option.none =>
    (g, if p.noreply then MCResult.BLANK else MCResult.REPLY ("NOT_FOUND\r\n".toList))

/-- Loop of `mc_entry_value_u64` over the value bytes: reject non-digits,
accumulate with `uint64_t` wrap-around, and reject when the wrapped value
decreases. -/
def mcValueU64Loop : Nat → List Char → Option Nat
  | v, [] => some v
  | v, c :: cs =>
    if !c.isDigit then Option.none
    else
      let vv := (v * 10 + (c.toNat - 48)) % 2 ^ 64
      if vv < v then Option.none else mcValueU64Loop vv cs

/-- Model of `mc_entry_value_u64`: an empty value is rejected; otherwise
parse the decimal digits. -/
def mcEntryValueU64 (e : MCEntry) : Option Nat :=
  if e.value.length = 0 then Option.none else mcValueU64Loop 0 e.value

/-- Digit loop of `mc_entry_create_u64` (`do { ... } while (value)`),
least-significant digit first.  The C code writes into `char buffer[32]`;
the fuel mirrors that bound (a `uint64_t` has at most 20 decimal
digits). -/
def mcU64DigitsAux : Nat → Nat → List Nat
  | 0, _ => []
  | fuel + 1, v => v % 10 :: (if v / 10 = 0 then [] else mcU64DigitsAux fuel (v / 10))

/-- Digits of a `uint64_t`, least-significant first, as produced by
`mc_entry_create_u64`. -/
def mcU64Digits (v : Nat) : List Nat := mcU64DigitsAux 32 v

/-- Value bytes produced by `mc_entry_create_u64`: the buffered digits are
copied back in reverse, giving the usual most-significant-first decimal
text. -/
def mcU64Repr (v : Nat) : List Char :=
  ((mcU64Digits v).map (fun d => Char.ofNat (48 + d))).reverse

/-- Model of `mc_entry_create_u64`: a fresh entry whose value is the
decimal text of `value`. -/
def mcEntryCreateU64 (g : MCGlobal) (key : List Char) (value : Nat) :
    MCGlobal × MCEntry :=
  mcEntryCreate g key (mcU64Repr value)

/-- Model of `mc_process_incr`: on a numeric existing entry, add the
operand with `uint64_t` wrap-around, store a fresh entry with the old
flags, and return it as a `MC_RESULT_VALUE` result; otherwise reply
`CLIENT_ERROR ...` (existing non-numeric entry) or `NOT_FOUND`. -/
def mcProcessIncr (g : MCGlobal) (p : MCIncParams) : MCGlobal × MCResult :=
  let index := mcTableKeyIndex g.table p.key
  match mcTableLookup g.table index p.key with
  | some oldEntry =>
    match mcEntryValueU64 oldEntry with
    | some value =>
      let value := (value + p.value) % 2 ^ 64
      let created := mcEntryCreateU64 g p.key value
      let newEntry := { created.2 with flags := oldEntry.flags }
      let rm := mcTableRemove created.1.table index p.key
      let g2 := { created.1 with table := mcTableInsert rm.2 index newEntry }
      (g2, if p.noreply then MCResult.BLANK else MCResult.VALUE newEntry)
    | Option.none =>
      (g, if p.noreply then MCResult.BLANK
          else MCResult.REPLY
            ("CLIENT_ERROR cannot increment or decrement non-numeric value\r\n".toList))
  | Option.none =>
    (g, if p.noreply then MCResult.BLANK
        else MCResult.REPLY ("NOT_FOUND\r\n".toList))

/-- Model of `mc_process_decr`: like `incr` but the operand is subtracted
and the result clamps at zero (`if (value > arg) value -= arg; else
value = 0;`). -/
def mcProcessDecr (g : MCGlobal) (p : MCIncParams) : MCGlobal × MCResult :=
  let index := mcTableKeyIndex g.table p.key
  match mcTableLookup g.table index p.key with
  | some oldEntry =>
    match mcEntryValueU64 oldEntry with
    | some value =>
      let value := if value > p.value then value - p.value else 0
      let created := mcEntryCreateU64 g p.key value
      let newEntry := { created.2 with flags := oldEntry.flags }
      let rm := mcTableRemove created.1.table index p.key
      let g2 := { created.1 with table := mcTableInsert rm.2 index newEntry }
      (g2, if p.noreply then MCResult.BLANK else MCResult.VALUE newEntry)
    | Option.none =>
      (g, if p.noreply then MCResult.BLANK
          else MCResult.REPLY
            ("CLIENT_ERROR cannot increment or decrement non-numeric value\r\n".toList))
  | Option.none =>
    (g, if p.noreply then MCResult.BLANK
        else MCResult.REPLY ("NOT_FOUND\r\n".toList))

/-- Encoding of one `MC_RESULT_ENTRY[_CAS]` entry by `mc_transmit_buffer`:
the `VALUE` line (`printf`), the spliced value bytes, and the closing
`CRLF`. -/
def mcTransmitEntry (withCas : Bool) (e : MCEntry) : List Char :=
  "VALUE ".toList ++ e.key ++ [' '] ++ mmDec e.flags ++ [' '] ++ mmDec e.value.length ++
    (if withCas then [' '] ++ mmDec e.cas else []) ++
    "\r\n".toList ++ e.value ++ "\r\n".toList

/-- Model of `mc_transmit_buffer`: the bytes appended to the transmit
buffer for one command result.  `BLANK` appends nothing; `QUIT` appends
nothing and closes the socket (the quit flag is handled by the writer
model); `NONE` is the unreachable `ABORT()` default. -/
def mcTransmitBuffer : MCResult → List Char
  | MCResult.NONE => []
  | MCResult.BLANK => []
  | MCResult.REPLY s => s
  | MCResult.ENTRY es =>
    (es.map (mcTransmitEntry false)).flatten ++ "END\r\n".toList
  | MCResult.ENTRY_CAS es =>
    (es.map (mcTransmitEntry true)).flatten ++ "END\r\n".toList
  | MCResult.VALUE e => e.value ++ "END\r\n".toList
  | MCResult.QUIT => []

/-- Command as seen by the connection FIFO; only the result matters for
the writer (`struct mc_command`, `result_type` plus `result`). -/
structure MCQueuedCommand where
  result : MCResult
  deriving Repr, DecidableEq

/-- Model of `mc_command_create`: a fresh command has
`result_type == MC_RESULT_NONE`. -/
def mcCommandCreate : MCQueuedCommand := { result := MCResult.NONE }

/-- Connection state relevant to the writer: the command FIFO
(`command_head` first) and the quit flag. -/
structure MCConnState where
  commands : List MCQueuedCommand
  quit : Bool

/-- Transmit loop of `mc_writer_routine` (`while (!state->quit) ...`):
returns the commands whose results get encoded, in order.  Transmitting a
`QUIT` result sets the quit flag, which stops the loop before the next
command. -/
def mcWriterLoop (quit : Bool) (last : MCQueuedCommand)
    (rest : List MCQueuedCommand) : List MCQueuedCommand :=
  if quit then []
  else
    last ::
      match rest with
      | [] => []
      | next :: rest' =>
        if next.result = MCResult.NONE then []
        else mcWriterLoop (quit || decide (last.result = MCResult.QUIT)) next rest'

/-- Model of `mc_writer_routine`'s selection of commands: nothing is sent
when the FIFO is empty or its head still has `MC_RESULT_NONE`; otherwise
the transmit loop runs from the head. -/
def mcWriterTransmitted (s : MCConnState) : List MCQueuedCommand :=
  match s.commands with
  | [] => []
  | head :: rest =>
    if head.result = MCResult.NONE then [] else mcWriterLoop s.quit head rest

/-- Bytes the writer puts into the transmit buffer: the concatenation of
the transmitted commands' encodings, in FIFO order. -/
def mcWriterOutput (s : MCConnState) : List Char :=
  ((mcWriterTransmitted s).map (fun c => mcTransmitBuffer c.result)).flatten

/-- Partition counters of `struct mc_tpart` relevant to
`mc_table_check_size` (memcache/table.c, the partitioned variant of the
engine). -/
structure MCTPart where
  nbuckets : Nat
  nentries : Nat
  nentriesFree : Nat
  nentriesVoid : Nat
  striding : Bool

/-- Helper: `uint32_t` subtraction (the counters of `struct mc_tpart` are
`uint32_t`). -/
def mcSub32 (a b : Nat) : Nat := (a + 2 ^ 32 - b) % 2 ^ 32

/-- Model of `mc_table_check_size` (memcache/table.c): the stored-entry
count is `nentries - nentries_free - nentries_void`, and the partition
wants to grow when it exceeds `nbuckets * 2` while `nbuckets` is below
`nbuckets_max`. -/
def mcTableCheckSize (p : MCTPart) (nbucketsMax : Nat) : Bool :=
  let nb := p.nbuckets
  let ne := mcSub32 (mcSub32 p.nentries p.nentriesFree) p.nentriesVoid
  decide (ne > nb * 2) && decide (nb < nbucketsMax)

/-- Model of `mc_table_reserve_entries` (memcache/table.c): striding is
started exactly when the partition is not already striding and
`mc_table_check_size` holds. -/
def mcTableReserveEntries (p : MCTPart) (nbucketsMax : Nat) : Bool :=
  !p.striding && mcTableCheckSize p nbucketsMax

/-- Cursor state of `struct mc_parser` over the segmented receive buffer:
the head list is the unconsumed remainder of the current segment, the
tail lists are the following segments.  `resultType` is the command's
result, `quit` the connection's quit flag, `error` the parser's error
flag. -/
structure MCParseState where
  segs : List (List Char)
  resultType : MCResult
  quit : Bool
  error : Bool

/-- Helper for `mc_parse_error`'s `memchr(s, '\n', e - s)` scan: drop the
bytes of one segment up to and including the first LF; `none` when the
segment has no LF. -/
def mcDropThroughLF : List Char → Option (List Char)
  | [] => Option.none
  | c :: cs => if c = '\n' then some cs else mcDropThroughLF cs

/-- Segment loop of `mc_parse_error`: scan segment after segment
(`mm_buffer_next_out`) for the first LF. -/
def mcSkipToLF : List (List Char) → Option (List (List Char))
  | [] => Option.none
  | seg :: rest =>
    match mcDropThroughLF seg with
    | some suffix => some (suffix :: rest)
    | Option.none => mcSkipToLF rest

/-- Model of `mc_parse_error`: set the error flag, consume everything up
to and including the next LF and report the error reply (`mc_reply`),
returning `true`; when no LF is present all input is consumed and the
routine returns `false` (more data needed). -/
def mcParseFail (p : MCParseState) (errorString : List Char) : Bool × MCParseState :=
  match mcSkipToLF p.segs with
  | some segs' =>
    (true, { p with error := true, segs := segs',
                    resultType := MCResult.REPLY errorString })
  | Option.none => (false, { p with error := true, segs := [] })

/-- Model of `mc_more_input`: with more than 1024 junk characters scanned
the client looks insane — the command result becomes `MC_RESULT_QUIT`,
the connection is marked to quit and `false` is returned; otherwise the
cursor advances to the next segment (`mm_buffer_next_out`), returning
whether one exists. -/
def mcMoreInput (p : MCParseState) (count : Nat) : Bool × MCParseState :=
  if count > 1024 then
    (false, { p with resultType := MCResult.QUIT, quit := true })
  else
    match p.segs with
    | _ :: next :: rest => (true, { p with segs := next :: rest })
    | _ => (false, { p with segs := [] })

/-- Entry identity in the reference-count model: an index into the heap
list. -/
abbrev RCEntryId := Nat

/-- Entry payload tracked by the reference-count model: `ref_count` plus
the key (needed by the table operations). -/
structure RCEntry where
  refCount : Nat
  key : List Char
  deriving Repr, DecidableEq

/-- Heap-level state for the entry-lifetime model of memcache.c: `heap`
maps an entry id to its live payload (`none` = the memory was freed),
`buckets` holds the table's chains as lists of ids, `results` the ids
referenced by pending command results, and `mask`/`used` the table
geometry for `mc_table_index`. -/
structure RCState where
  heap : List (Option RCEntry)
  buckets : Nat → List RCEntryId
  results : List RCEntryId
  mask : Nat
  used : Nat

/-- Key index in the reference-count model, mirroring `mc_table_index`. -/
def rcKeyIndex (s : RCState) (key : List Char) : Nat :=
  let index := mcHash key &&& s.mask
  if index ≥ s.used then index &&& (s.mask >>> 1) else index

/-- Heap lookup of a live entry. -/
def rcGet (s : RCState) (id : RCEntryId) : Option RCEntry :=
  (s.heap.getD id Option.none)

/-- Model of `mc_entry_create`: allocate a fresh entry with
`ref_count = 1`. -/
def rcEntryCreate (s : RCState) (key : List Char) : RCState × RCEntryId :=
  ({ s with heap := s.heap ++ [some { refCount := 1, key := key }] }, s.heap.length)

/-- Model of `mc_entry_ref`: increment the reference count. -/
def rcEntryRef (s : RCState) (id : RCEntryId) : RCState :=
  { s with heap := s.heap.modify (fun e => e.map (fun e => { e with refCount := e.refCount + 1 })) id }

/-- Model of `mc_entry_unref`: decrement the reference count and free the
entry (`mc_entry_destroy`) exactly when it reaches zero. -/
def rcEntryUnref (s : RCState) (id : RCEntryId) : RCState :=
  match rcGet s id with
  | Option.none => s
  | some e =>
    if e.refCount - 1 = 0 then { s with heap := s.heap.set id Option.none }
    else { s with heap := s.heap.set id (some { e with refCount := e.refCount - 1 }) }

/-- Model of `mc_entry_destroy` (`mm_free`): free the entry outright,
whatever its reference count; freeing `NULL` is a no-op. -/
def rcEntryDestroy (s : RCState) (id : Option RCEntryId) : RCState :=
  match id with
  | Option.none => s
  | some id => { s with heap := s.heap.set id Option.none }

/-- Chain helper for `mc_table_remove` in the reference-count model:
unlink the first id whose (live) entry matches the key. -/
def rcRemoveFirst (s : RCState) (key : List Char) :
    List RCEntryId → Option RCEntryId × List RCEntryId
  | [] => (Option.none, [])
  | id :: rest =>
    if (rcGet s id).any (fun e => decide (e.key = key)) then (some id, rest)
    else
      let r := rcRemoveFirst s key rest
      (r.1, id :: r.2)

/-- Model of `mc_table_remove` at the reference-count level. -/
def rcTableRemove (s : RCState) (key : List Char) : Option RCEntryId × RCState :=
  let index := rcKeyIndex s key
  let r := rcRemoveFirst s key (s.buckets index)
  (r.1, { s with buckets := fun i => if i = index then r.2 else s.buckets i })

/-- Model of `mc_table_lookup` at the reference-count level. -/
def rcTableLookup (s : RCState) (key : List Char) : Option RCEntryId :=
  (s.buckets (rcKeyIndex s key)).find?
    (fun id => (rcGet s id).any (fun e => decide (e.key = key)))

/-- Model of `mc_table_insert` at the reference-count level. -/
def rcTableInsert (s : RCState) (key : List Char) (id : RCEntryId) : RCState :=
  let index := rcKeyIndex s key
  { s with buckets := fun i => if i = index then id :: s.buckets i else s.buckets i }

/-- Model of `mc_process_set`, reference counts only: remove and unref any
old entry, create the new one (`ref_count = 1`), insert it, and take one
more reference (`mc_entry_ref(new_entry)` in the source). -/
def rcProcessSet (s : RCState) (key : List Char) : RCState :=
  let rm := rcTableRemove s key
  let s := match rm.1 with
    | some oldId => rcEntryUnref rm.2 oldId
    | Option.none => rm.2
  let created := rcEntryCreate s key
  let s := rcTableInsert created.1 key created.2
  rcEntryRef s created.2

/-- Model of `mc_process_get2`, reference counts only: a found entry is
ref'd and stored in the command's result. -/
def rcProcessGet (s : RCState) (key : List Char) : RCState :=
  match rcTableLookup s key with
  | some id => { (rcEntryRef s id) with results := s.results ++ [id] }
  | Option.none => s

/-- Model of `mc_process_delete`: remove the matching entry and then call
`mc_entry_destroy(old_entry)` on it — not `mc_entry_unref`. -/
def rcProcessDelete (s : RCState) (key : List Char) : RCState :=
  let rm := rcTableRemove s key
  rcEntryDestroy rm.2 rm.1

/-- Initial reference-count state: table geometry of `mc_table_init`,
empty heap and buckets. -/
def rcInit : RCState :=
  { heap := [], buckets := fun _ => [], results := [],
    mask := mcTableSizeMin - 1, used := mcTableSizeMin }

/-- Slot of the MPMC ring buffer (`struct mm_ring_node`). -/
structure MMRingNode where
  data : Nat
  lock : Nat
  deriving Repr, DecidableEq

/-- Model of `struct mm_ring_mpmc`: head and tail counters (`uintptr_t`,
64-bit), the index mask, and the slot array as a total function. -/
structure MMRingMpmc where
  head : Nat
  tail : Nat
  mask : Nat
  ring : Nat → MMRingNode

/-- Modelled from the spec: `mm_ring_mpmc_prepare` lives in ring.c, which
is not among the sources.  Per the specification the rings are bounded
and power-of-two sized, `ring[tail & mask]` indexes the `size` slots (so
`mask = size - 1`), and slot `i` initially accepts the producer of
position `i` (its lock counter starts at `i`). -/
def mmRingMpmcPrepare (size : Nat) : MMRingMpmc :=
  { head := 0, tail := 0, mask := size - 1,
    ring := fun i => { data := 0, lock := i &&& (size - 1) } }

/-- Model of `mm_ring_mpmc_put` (successful-CAS path): load the tail, and
when the slot's lock counter equals the tail, CAS the tail to `tail + 1`,
store the data and set the slot's lock to `tail + 1`; `none` models the
`return false` paths. -/
def mmRingMpmcPut (r : MMRingMpmc) (data : Nat) : Option MMRingMpmc :=
  let tail := r.tail
  let i := tail &&& r.mask
  if (r.ring i).lock ≠ tail then Option.none
  else
    some { r with tail := (tail + 1) % 2 ^ 64,
                  ring := fun j =>
                    if j = i then { data := data, lock := (tail + 1) % 2 ^ 64 }
                    else r.ring j }

/-- Model of `mm_ring_mpmc_get` (successful-CAS path): load the head, and
when the slot's lock counter equals `head + 1`, CAS the head to
`head + 1`, read the data and set the slot's lock to
`head + 1 + mask`. -/
def mmRingMpmcGet (r : MMRingMpmc) : Option (MMRingMpmc × Nat) :=
  let head := r.head
  let i := head &&& r.mask
  if (r.ring i).lock ≠ (head + 1) % 2 ^ 64 then Option.none
  else
    let data := (r.ring i).data
    some ({ r with head := (head + 1) % 2 ^ 64,
                   ring := fun j =>
                     if j = i then { data := data, lock := (head + 1 + r.mask) % 2 ^ 64 }
                     else r.ring j }, data)

/-- Arithmetic form of the in-partition bucket index: `h & (size-1)` when
that index is below `used`, else `h & ((size-1) >> 1)` — written with
`%` (the table size is a power of two). -/
def mcIndexArith (size used h : Nat) : Nat :=
  if h % size < used then h % size else h % (size / 2)

/-- Placement invariant of the striding table: every entry sits in the
bucket computed by the index function. -/
def mcPlaced (size used : Nat) (tab : Nat → List MCEntry) : Prop :=
  ∀ i e, e ∈ tab i → mcIndexArith size used (mcHash e.key) = i

/-! Shared helper lemmas. -/

theorem mcTableInsert_mask (t : MCTable) (i : Nat) (e : MCEntry) :
    (mcTableInsert t i e).mask = t.mask := by
  unfold mcTableInsert
  dsimp only []
  split <;> rfl

theorem mcTableInsert_size (t : MCTable) (i : Nat) (e : MCEntry) :
    (mcTableInsert t i e).size = t.size := by
  unfold mcTableInsert
  dsimp only []
  split <;> rfl

theorem mcTableInsert_used (t : MCTable) (i : Nat) (e : MCEntry) :
    (mcTableInsert t i e).used = t.used := by
  unfold mcTableInsert
  dsimp only []
  split <;> rfl

theorem mcTableInsert_table (t : MCTable) (i : Nat) (e : MCEntry) :
    (mcTableInsert t i e).table =
      fun j => if j = i then e :: t.table j else t.table j := by
  unfold mcTableInsert
  dsimp only []
  split <;> rfl

theorem mcTableRemove_mask (t : MCTable) (i : Nat) (k : List Char) :
    (mcTableRemove t i k).2.mask = t.mask := by
  unfold mcTableRemove
  split <;> simp_all

theorem mcTableRemove_size (t : MCTable) (i : Nat) (k : List Char) :
    (mcTableRemove t i k).2.size = t.size := by
  unfold mcTableRemove
  split <;> simp_all

theorem mcTableRemove_used (t : MCTable) (i : Nat) (k : List Char) :
    (mcTableRemove t i k).2.used = t.used := by
  unfold mcTableRemove
  split <;> simp_all

theorem mcTableKeyIndex_congr (t t' : MCTable) (k : List Char)
    (hm : t'.mask = t.mask) (hu : t'.used = t.used) :
    mcTableKeyIndex t' k = mcTableKeyIndex t k := by
  unfold mcTableKeyIndex mcTableIndex
  rw [hm, hu]

theorem mcTableLookup_insert_self (t : MCTable) (i : Nat) (e : MCEntry)
    (k : List Char) (hk : e.key = k) :
    mcTableLookup (mcTableInsert t i e) i k = some e := by
  unfold mcTableLookup
  rw [mcTableInsert_table]
  simp [hk]

/-- Claim C2: the refcount discipline requires that an entry is freed
exactly when its reference count reaches 0, and that removal from the
table releases the entry only by decrementing the count.  The code
violates this: after `set k` (refcount 2: table pointer plus the extra
`mc_entry_ref` in `mc_process_set`) and `get k` (refcount 3, the result
holds the entry), `mc_process_delete` frees the entry outright through
`mc_entry_destroy` while its reference count is still 3 and the pending
get result still points to it. -/
theorem mc_process_delete_destroys_referenced_entry :
    rcGet (rcProcessGet (rcProcessSet rcInit (['k'])) (['k'])) 0 =
      some { refCount := 3, key := ['k'] } ∧
    (rcProcessDelete (rcProcessGet (rcProcessSet rcInit (['k'])) (['k']))
        (['k'])).heap.getD 0 Option.none = Option.none ∧
    (0 : RCEntryId) ∈
      (rcProcessDelete (rcProcessGet (rcProcessSet rcInit (['k'])) (['k']))
        (['k'])).results := by
  decide

theorem mcWriterLoop_take (rest : List MCQueuedCommand) :
    ∀ (quit : Bool) (last : MCQueuedCommand), last.result ≠ MCResult.NONE →
      ∃ n, mcWriterLoop quit last rest = (last :: rest).take n ∧
        ∀ c ∈ (last :: rest).take n, c.result ≠ MCResult.NONE := by
  induction rest with
  | nil =>
    intro quit last hl
    cases quit with
    | true => exact ⟨0, by simp [mcWriterLoop]⟩
    | false =>
      refine ⟨1, by simp [mcWriterLoop], ?_⟩
      intro c hc
      simp at hc
      subst hc
      exact hl
  | cons next rest' ih =>
    intro quit last hl
    cases quit with
    | true => exact ⟨0, by simp [mcWriterLoop]⟩
    | false =>
      by_cases hn : next.result = MCResult.NONE
      · refine ⟨1, by simp [mcWriterLoop, hn], ?_⟩
        intro c hc
        simp at hc
        subst hc
        exact hl
      · obtain ⟨n, hn1, hn2⟩ :=
          ih (false || decide (last.result = MCResult.QUIT)) next hn
        refine ⟨n + 1, ?_, ?_⟩
        · rw [show mcWriterLoop false last (next :: rest') =
              last :: mcWriterLoop (false || decide (last.result = MCResult.QUIT))
                next rest' from by simp [mcWriterLoop, hn]]
          rw [hn1, List.take_succ_cons]
        · intro c hc
          simp only [List.take_succ_cons, List.mem_cons] at hc
          rcases hc with h | h
          · subst h; exact hl
          · exact hn2 c h

/-- Claim C3: a freshly created command has `result_type == MC_RESULT_NONE`
(its processor later stores the terminal result), and the writer
transmits exactly a prefix of the connection FIFO consisting of commands
whose result is not `NONE`, in submission order — the emitted bytes are
the concatenation of those commands' encodings and transmission never
passes the first command whose result is still `NONE`. -/
theorem mc_writer_transmits_ready_prefix (s : MCConnState) :
    mcCommandCreate.result = MCResult.NONE ∧
    ∃ n, mcWriterTransmitted s = s.commands.take n ∧
      (∀ c ∈ s.commands.take n, c.result ≠ MCResult.NONE) ∧
      mcWriterOutput s =
        ((s.commands.take n).map (fun c => mcTransmitBuffer c.result)).flatten := by
  refine ⟨rfl, ?_⟩
  have main : ∃ n, mcWriterTransmitted s = s.commands.take n ∧
      ∀ c ∈ s.commands.take n, c.result ≠ MCResult.NONE := by
    unfold mcWriterTransmitted
    cases hc : s.commands with
    | nil => exact ⟨0, by simp⟩
    | cons head rest =>
      by_cases hh : head.result = MCResult.NONE
      · exact ⟨0, by simp [hh]⟩
      · obtain ⟨n, h1, h2⟩ := mcWriterLoop_take rest s.quit head hh
        exact ⟨n, by simp [hh, h1], h2⟩
  obtain ⟨n, h1, h2⟩ := main
  exact ⟨n, h1, h2, by unfold mcWriterOutput; rw [h1]⟩

/-- Claim C5, counterexample: in memcache.c an insert that raises
`nentries` to `2 * size + 1` (more than twice the bucket count, bucket
count far below the maximum, not already striding) does not start
striding, because `mc_table_is_full` tests `nentries > size * 4`. -/
theorem mc_table_insert_threshold_counterexample :
    (mcTableInsert
        { mask := 4095, size := 4096, used := 4096, striding := false,
          nentries := 8192, table := fun _ => [] } 0
        { key := ['a'], value := [], flags := 0, cas := 0 }).nentries =
      2 * 4096 + 1 ∧
    4096 < mcTableSizeMax ∧
    (mcTableInsert
        { mask := 4095, size := 4096, used := 4096, striding := false,
          nentries := 8192, table := fun _ => [] } 0
        { key := ['a'], value := [], flags := 0, cas := 0 }).striding = false := by
  refine ⟨rfl, by decide, ?_⟩
  decide

theorem mcSub32_eq_sub (a b : Nat) (hb : b ≤ a) (ha : a < 2 ^ 32) :
    mcSub32 a b = a - b := by
  unfold mcSub32
  have h1 : a + 2 ^ 32 - b = (a - b) + 2 ^ 32 := by omega
  rw [h1, Nat.add_mod_right, Nat.mod_eq_of_lt (by omega)]

theorem mcTableIsFull_defeq (t : MCTable) (f : Nat → List MCEntry) (n : Nat) :
    mcTableIsFull { t with table := f, nentries := n } =
      mcTableIsFull { t with nentries := n } := rfl

theorem mcTableInsert_striding (t : MCTable) (i : Nat) (e : MCEntry) :
    (mcTableInsert t i e).striding =
      ((!t.striding && mcTableIsFull { t with nentries := t.nentries + 1 }) || t.striding) := by
  unfold mcTableInsert
  dsimp only []
  rw [mcTableIsFull_defeq]
  by_cases hc : (!t.striding && mcTableIsFull { t with nentries := t.nentries + 1 }) = true
  · rw [if_pos hc, hc]
    rfl
  · rw [if_neg hc]
    revert hc
    cases h : (!t.striding && mcTableIsFull { t with nentries := t.nentries + 1 }) <;> simp

/-- Claim C5, amended: in the single-table memcache.c an insert starts
striding exactly when the table was not already striding and
`mc_table_is_full` holds for the incremented entry count, where full
means `nentries > size * 4` (and never at the hard maximum with
`used == size`); in the partitioned memcache/table.c variant,
`mc_table_reserve_entries` starts striding exactly when the partition is
not already striding, its stored entries
(`nentries - nentries_free - nentries_void`) exceed `2 * nbuckets`, and
`nbuckets < nbuckets_max`. -/
theorem mc_striding_start_condition (t : MCTable) (i : Nat) (e : MCEntry)
    (p : MCTPart) (m : Nat)
    (h1 : p.nentriesFree + p.nentriesVoid ≤ p.nentries)
    (h2 : p.nentries < 2 ^ 32) :
    ((mcTableInsert t i e).striding = true ↔
       (t.striding = true ∨
        mcTableIsFull { t with nentries := t.nentries + 1 } = true)) ∧
    (mcTableIsFull t = true ↔
       (¬(t.size = mcTableSizeMax ∧ t.used = t.size) ∧ t.nentries > t.size * 4)) ∧
    (mcTableCheckSize p m = true ↔
       (p.nentries - p.nentriesFree - p.nentriesVoid > p.nbuckets * 2 ∧
        p.nbuckets < m)) ∧
    (mcTableReserveEntries p m = true ↔
       (p.striding = false ∧ mcTableCheckSize p m = true)) := by
  have hfull : ∀ t' : MCTable, mcTableIsFull t' = true ↔
      (¬(t'.size = mcTableSizeMax ∧ t'.used = t'.size) ∧
       t'.nentries > t'.size * 4) := by
    intro t'
    unfold mcTableIsFull
    split
    · simp_all
    · simp_all
  refine ⟨?_, hfull t, ?_, ?_⟩
  · rw [mcTableInsert_striding]
    cases t.striding <;> cases mcTableIsFull { t with nentries := t.nentries + 1 } <;> simp
  · unfold mcTableCheckSize
    have hf : p.nentriesFree ≤ p.nentries := by omega
    have hv : p.nentriesVoid ≤ p.nentries - p.nentriesFree := by omega
    rw [mcSub32_eq_sub _ _ hf h2, mcSub32_eq_sub _ _ hv (by omega)]
    simp
  · unfold mcTableReserveEntries
    cases p.striding <;> simp

theorem mc_striding_start_condition_witness :
    ((5 : Nat) + 2 ≤ 20 ∧ (20 : Nat) < 2 ^ 32) ∧
    (((mcTableInsert
          { mask := 0, size := 0, used := 0, striding := false, nentries := 0,
            table := fun _ => [] } 0
          { key := [], value := [], flags := 0, cas := 0 }).striding = true ↔
        (({ mask := 0, size := 0, used := 0, striding := false, nentries := 0,
            table := fun _ => [] } : MCTable).striding = true ∨
         mcTableIsFull
           { ({ mask := 0, size := 0, used := 0, striding := false, nentries := 0,
                table := fun _ => [] } : MCTable) with nentries := 0 + 1 } = true)) ∧
      (mcTableIsFull
          { mask := 0, size := 0, used := 0, striding := false, nentries := 0,
            table := fun _ => [] } = true ↔
        (¬((0 : Nat) = mcTableSizeMax ∧ (0 : Nat) = 0) ∧ (0 : Nat) > 0 * 4)) ∧
      (mcTableCheckSize
          { nbuckets := 4, nentries := 20, nentriesFree := 5, nentriesVoid := 2,
            striding := false } 100 = true ↔
        ((20 : Nat) - 5 - 2 > 4 * 2 ∧ (4 : Nat) < 100)) ∧
      (mcTableReserveEntries
          { nbuckets := 4, nentries := 20, nentriesFree := 5, nentriesVoid := 2,
            striding := false } 100 = true ↔
        (({ nbuckets := 4, nentries := 20, nentriesFree := 5, nentriesVoid := 2,
            striding := false } : MCTPart).striding = false ∧
         mcTableCheckSize
           { nbuckets := 4, nentries := 20, nentriesFree := 5, nentriesVoid := 2,
             striding := false } 100 = true))) :=
  ⟨⟨by decide, by decide⟩,
   mc_striding_start_condition
     { mask := 0, size := 0, used := 0, striding := false, nentries := 0,
       table := fun _ => [] } 0
     { key := [], value := [], flags := 0, cas := 0 }
     { nbuckets := 4, nentries := 20, nentriesFree := 5, nentriesVoid := 2,
       striding := false } 100 (by decide) (by decide)⟩

/-- Claim C9, counterexample: on a ring of capacity 4 (mask 3), after a
successful enqueue at tail 0, a successful dequeue at head 0 sets the
slot's lock counter to `0 + 1 + mask = 4 = head + capacity`, not to
`head + 1 + capacity = 5` as the claim states. -/
theorem mm_ring_mpmc_get_lock_counterexample :
    (mmRingMpmcPut (mmRingMpmcPrepare 4) 7).bind
        (fun r1 => (mmRingMpmcGet r1).map (fun x => (x.1.ring 0).lock)) =
      some 4 ∧ (4 : Nat) ≠ 0 + 1 + 4 := by
  decide

/-- Claim C9, amended: a successful non-waiting enqueue checks that the
slot's lock counter equals the tail `t`, advances the tail to `t + 1` by
CAS, publishes the data, and sets the slot's lock to `t + 1`; a
successful non-waiting dequeue checks that the slot's lock counter equals
`h + 1`, advances the head to `h + 1` by CAS, reads the data, and sets
the slot's lock to `h + 1 + mask`, which equals `h + capacity` where
`capacity = mask + 1` is the number of ring slots. -/
theorem mm_ring_mpmc_put_get_spec (r : MMRingMpmc) (d cap : Nat)
    (hcap : 0 < cap) (hm : r.mask = cap - 1)
    (htail : r.tail + 1 < 2 ^ 64) (hhead : r.head + 1 + r.mask < 2 ^ 64) :
    (∀ r', mmRingMpmcPut r d = some r' →
       ((r.ring (r.tail &&& r.mask)).lock = r.tail ∧
        r'.tail = r.tail + 1 ∧
        (r'.ring (r.tail &&& r.mask)).data = d ∧
        (r'.ring (r.tail &&& r.mask)).lock = r.tail + 1)) ∧
    (mmRingMpmcPut r d = Option.none ↔
       (r.ring (r.tail &&& r.mask)).lock ≠ r.tail) ∧
    (∀ r' x, mmRingMpmcGet r = some (r', x) →
       ((r.ring (r.head &&& r.mask)).lock = r.head + 1 ∧
        r'.head = r.head + 1 ∧
        x = (r.ring (r.head &&& r.mask)).data ∧
        (r'.ring (r.head &&& r.mask)).lock = r.head + cap)) ∧
    (mmRingMpmcGet r = Option.none ↔
       (r.ring (r.head &&& r.mask)).lock ≠ r.head + 1) := by
  have hm1 : (r.tail + 1) % 2 ^ 64 = r.tail + 1 := Nat.mod_eq_of_lt htail
  have hh1 : (r.head + 1) % 2 ^ 64 = r.head + 1 :=
    Nat.mod_eq_of_lt (by omega)
  have hh2 : (r.head + 1 + r.mask) % 2 ^ 64 = r.head + cap := by
    rw [Nat.mod_eq_of_lt hhead]
    omega
  refine ⟨?_, ?_, ?_, ?_⟩
  · intro r' hr'
    simp only [mmRingMpmcPut] at hr'
    split at hr'
    · exact absurd hr' (by simp)
    · next hlock =>
      rw [not_not] at hlock
      obtain rfl : _ = r' := Option.some.inj hr'
      refine ⟨hlock, by simpa using hm1, by simp, by simpa using hm1⟩
  · simp only [mmRingMpmcPut]
    split
    · next h => simp [h]
    · next h => simp [not_not.mp h]
  · intro r' x hr'
    simp only [mmRingMpmcGet] at hr'
    split at hr'
    · exact absurd hr' (by simp)
    · next hlock =>
      rw [not_not, hh1] at hlock
      obtain ⟨rfl, rfl⟩ : _ = r' ∧ _ = x := by
        have := Option.some.inj hr'
        exact ⟨congrArg Prod.fst this, congrArg Prod.snd this⟩
      refine ⟨hlock, by simpa using hh1, rfl, by simpa using hh2⟩
  · simp only [mmRingMpmcGet]
    split
    · next h =>
      rw [hh1] at h
      simp [h]
    · next h =>
      rw [hh1] at h
      rw [not_not] at h
      simp [h]

theorem mm_ring_mpmc_put_get_spec_witness :
    ((0 : Nat) < 4 ∧ (mmRingMpmcPrepare 4).mask = 4 - 1 ∧
     (mmRingMpmcPrepare 4).tail + 1 < 2 ^ 64 ∧
     (mmRingMpmcPrepare 4).head + 1 + (mmRingMpmcPrepare 4).mask < 2 ^ 64) ∧
    ((∀ r', mmRingMpmcPut (mmRingMpmcPrepare 4) 7 = some r' →
       (((mmRingMpmcPrepare 4).ring
           ((mmRingMpmcPrepare 4).tail &&& (mmRingMpmcPrepare 4).mask)).lock =
             (mmRingMpmcPrepare 4).tail ∧
        r'.tail = (mmRingMpmcPrepare 4).tail + 1 ∧
        (r'.ring ((mmRingMpmcPrepare 4).tail &&& (mmRingMpmcPrepare 4).mask)).data = 7 ∧
        (r'.ring ((mmRingMpmcPrepare 4).tail &&& (mmRingMpmcPrepare 4).mask)).lock =
          (mmRingMpmcPrepare 4).tail + 1)) ∧
     (mmRingMpmcPut (mmRingMpmcPrepare 4) 7 = Option.none ↔
        ((mmRingMpmcPrepare 4).ring
            ((mmRingMpmcPrepare 4).tail &&& (mmRingMpmcPrepare 4).mask)).lock ≠
          (mmRingMpmcPrepare 4).tail) ∧
     (∀ r' x, mmRingMpmcGet (mmRingMpmcPrepare 4) = some (r', x) →
       (((mmRingMpmcPrepare 4).ring
           ((mmRingMpmcPrepare 4).head &&& (mmRingMpmcPrepare 4).mask)).lock =
             (mmRingMpmcPrepare 4).head + 1 ∧
        r'.head = (mmRingMpmcPrepare 4).head + 1 ∧
        x = ((mmRingMpmcPrepare 4).ring
              ((mmRingMpmcPrepare 4).head &&& (mmRingMpmcPrepare 4).mask)).data ∧
        (r'.ring ((mmRingMpmcPrepare 4).head &&& (mmRingMpmcPrepare 4).mask)).lock =
          (mmRingMpmcPrepare 4).head + 4)) ∧
     (mmRingMpmcGet (mmRingMpmcPrepare 4) = Option.none ↔
        ((mmRingMpmcPrepare 4).ring
            ((mmRingMpmcPrepare 4).head &&& (mmRingMpmcPrepare 4).mask)).lock ≠
          (mmRingMpmcPrepare 4).head + 1)) :=
  ⟨⟨by decide, by decide, by decide, by decide⟩,
   mm_ring_mpmc_put_get_spec (mmRingMpmcPrepare 4) 7 4
     (by decide) (by decide) (by decide) (by decide)⟩

/-- Claim C1: for a key (no whitespace/control bytes, length at most 250)
and payload `v`, `set k 0 0 n` with payload `v` followed by `get k` (no
intervening commands on `k`) puts on the connection exactly
`STORED\r\n`, then `VALUE k 0 n\r\n`, then the payload bytes, then
`\r\n`, then `END\r\n`. -/
theorem mc_set_get_round_trip (g : MCGlobal) (k v : List Char)
    (hk : k ≠ []) (hlen : k.length ≤ 250)
    (hchar : ∀ c ∈ k, 32 < c.toNat ∧ c.toNat < 127) :
    mcWriterOutput
      { commands :=
          [{ result := (mcProcessSet g { key := k, flags := 0, exptime := 0, value := v, noreply := false }).2 },
           { result := (mcProcessGet (mcProcessSet g { key := k, flags := 0, exptime := 0, value := v, noreply := false }).1 [k]).2 }],
        quit := false }
      = "STORED\r\n".toList ++
        ("VALUE ".toList ++ k ++ " 0 ".toList ++ mmDec v.length ++ "\r\n".toList) ++
        v ++ "\r\n".toList ++ "END\r\n".toList := by
  have hst : (mcProcessSet g { key := k, flags := 0, exptime := 0, value := v, noreply := false }).1.table
      = mcTableInsert (mcTableRemove g.table (mcTableKeyIndex g.table k) k).2
          (mcTableKeyIndex g.table k)
          { key := k, value := v, flags := 0, cas := (g.cas + 1) % 2 ^ 64 } := rfl
  have hr2 : (mcProcessSet g { key := k, flags := 0, exptime := 0, value := v, noreply := false }).2
      = MCResult.REPLY ("STORED\r\n".toList) := rfl
  have hidx : mcTableKeyIndex (mcProcessSet g { key := k, flags := 0, exptime := 0, value := v, noreply := false }).1.table k
      = mcTableKeyIndex g.table k := by
    apply mcTableKeyIndex_congr
    · rw [hst, mcTableInsert_mask, mcTableRemove_mask]
    · rw [hst, mcTableInsert_used, mcTableRemove_used]
  have hlook : mcTableLookup (mcProcessSet g { key := k, flags := 0, exptime := 0, value := v, noreply := false }).1.table
      (mcTableKeyIndex (mcProcessSet g { key := k, flags := 0, exptime := 0, value := v, noreply := false }).1.table k) k
      = some { key := k, value := v, flags := 0, cas := (g.cas + 1) % 2 ^ 64 } := by
    rw [hidx, hst]
    exact mcTableLookup_insert_self _ _ _ _ rfl
  have hget : (mcProcessGet (mcProcessSet g { key := k, flags := 0, exptime := 0, value := v, noreply := false }).1 [k]).2
      = MCResult.ENTRY [{ key := k, value := v, flags := 0, cas := (g.cas + 1) % 2 ^ 64 }] := by
    simp [mcProcessGet, mcGetEntries, hlook]
  rw [mcWriterOutput]
  rw [show mcWriterTransmitted
      { commands :=
          [{ result := (mcProcessSet g { key := k, flags := 0, exptime := 0, value := v, noreply := false }).2 },
           { result := (mcProcessGet (mcProcessSet g { key := k, flags := 0, exptime := 0, value := v, noreply := false }).1 [k]).2 }],
        quit := false }
      = [{ result := (mcProcessSet g { key := k, flags := 0, exptime := 0, value := v, noreply := false }).2 },
         { result := (mcProcessGet (mcProcessSet g { key := k, flags := 0, exptime := 0, value := v, noreply := false }).1 [k]).2 }] from by
    simp [mcWriterTransmitted, mcWriterLoop, hr2, hget]]
  rw [hr2, hget]
  simp only [List.map, mcTransmitBuffer, mcTransmitEntry, List.flatten]
  simp [mmDec, List.append_assoc]
  rfl

theorem mc_set_get_round_trip_witness :
    ((['f', 'o', 'o'] : List Char) ≠ [] ∧
     (['f', 'o', 'o'] : List Char).length ≤ 250 ∧
     (∀ c ∈ (['f', 'o', 'o'] : List Char), 32 < c.toNat ∧ c.toNat < 127)) ∧
    mcWriterOutput
      { commands :=
          [{ result := (mcProcessSet { table := mcTableInit, cas := 0 }
               { key := ['f', 'o', 'o'], flags := 0, exptime := 0,
                 value := ['b', 'a', 'r'], noreply := false }).2 },
           { result := (mcProcessGet (mcProcessSet { table := mcTableInit, cas := 0 }
               { key := ['f', 'o', 'o'], flags := 0, exptime := 0,
                 value := ['b', 'a', 'r'], noreply := false }).1 [['f', 'o', 'o']]).2 }],
        quit := false }
      = "STORED\r\n".toList ++
        ("VALUE ".toList ++ ['f', 'o', 'o'] ++ " 0 ".toList ++
          mmDec (['b', 'a', 'r'] : List Char).length ++ "\r\n".toList) ++
        ['b', 'a', 'r'] ++ "\r\n".toList ++ "END\r\n".toList :=
  ⟨⟨by decide, by decide, by decide⟩,
   mc_set_get_round_trip { table := mcTableInit, cas := 0 } ['f', 'o', 'o'] ['b', 'a', 'r']
     (by decide) (by decide) (by decide)⟩

theorem mcU64DigitsAux_foldr (fuel : Nat) :
    ∀ v, v < 10 ^ fuel → 0 < fuel →
      (mcU64DigitsAux fuel v).foldr (fun d acc => acc * 10 + d) 0 = v := by
  induction fuel with
  | zero => intro v _ h; omega
  | succ f ih =>
    intro v hv _
    rw [mcU64DigitsAux]
    by_cases hq : v / 10 = 0
    · simp [hq]
      omega
    · rw [if_neg hq]
      have hf : 0 < f := by
        rcases Nat.eq_zero_or_pos f with hf0 | hf0
        · subst hf0
          simp at hv
          omega
        · exact hf0
      have hlt : v / 10 < 10 ^ f := by
        rw [Nat.div_lt_iff_lt_mul (by norm_num)]
        calc v < 10 ^ (f + 1) := hv
        _ = 10 ^ f * 10 := by ring
      simp only [List.foldr_cons]
      rw [ih (v / 10) hlt hf]
      omega

theorem mcU64DigitsAux_lt (fuel : Nat) :
    ∀ v d, d ∈ mcU64DigitsAux fuel v → d < 10 := by
  induction fuel with
  | zero => intro v d h; simp [mcU64DigitsAux] at h
  | succ f ih =>
    intro v d h
    rw [mcU64DigitsAux] at h
    rcases List.mem_cons.mp h with h | h
    · subst h; omega
    · split at h
      · simp at h
      · exact ih _ _ h

theorem mcU64DigitsAux_ne_nil (fuel v : Nat) (h : 0 < fuel) :
    mcU64DigitsAux fuel v ≠ [] := by
  cases fuel with
  | zero => omega
  | succ f => rw [mcU64DigitsAux]; simp

theorem mcDigitChar (d : Nat) (hd : d < 10) :
    (Char.ofNat (48 + d)).isDigit = true ∧ (Char.ofNat (48 + d)).toNat = 48 + d := by
  interval_cases d <;> exact ⟨rfl, rfl⟩

theorem mcFoldl_le (ds : List Nat) : ∀ a : Nat, a ≤ ds.foldl (fun x d => x * 10 + d) a := by
  induction ds with
  | nil => intro a; simp
  | cons d ds ih =>
    intro a
    simp only [List.foldl_cons]
    calc a ≤ a * 10 + d := by omega
    _ ≤ _ := ih (a * 10 + d)

theorem mcValueU64Loop_digits (ds : List Nat) :
    ∀ a : Nat, (∀ d ∈ ds, d < 10) →
      ds.foldl (fun x d => x * 10 + d) a < 2 ^ 64 →
      mcValueU64Loop a (ds.map (fun d => Char.ofNat (48 + d))) =
        some (ds.foldl (fun x d => x * 10 + d) a) := by
  induction ds with
  | nil => intro a _ _; rfl
  | cons d ds ih =>
    intro a hds hbound
    have hd : d < 10 := hds d (List.mem_cons_self d ds)
    obtain ⟨hdig, htn⟩ := mcDigitChar d hd
    simp only [List.foldl_cons] at hbound
    have hle : a * 10 + d ≤ ds.foldl (fun x d => x * 10 + d) (a * 10 + d) :=
      mcFoldl_le ds (a * 10 + d)
    have hmod : (a * 10 + (Char.ofNat (48 + d)).toNat - 48) % 2 ^ 64 = a * 10 + d := by
      rw [htn]
      have : a * 10 + (48 + d) - 48 = a * 10 + d := by omega
      rw [this]
      exact Nat.mod_eq_of_lt (by omega)
    rw [List.map_cons, mcValueU64Loop]
    rw [hdig]
    simp only [Bool.not_true, Bool.false_eq_true, if_false]
    have harg : ((a * 10 + ((Char.ofNat (48 + d)).toNat - 48)) % 2 ^ 64) = a * 10 + d := by
      rw [htn]
      have : 48 + d - 48 = d := by omega
      rw [this]
      exact Nat.mod_eq_of_lt (by omega)
    rw [harg]
    rw [if_neg (by omega)]
    simp only [List.foldl_cons]
    exact ih (a * 10 + d) (fun x hx => hds x (List.mem_cons_of_mem d hx)) hbound

theorem mcEntryValueU64_repr (e : MCEntry) (v : Nat) (hv : v < 2 ^ 64)
    (he : e.value = mcU64Repr v) : mcEntryValueU64 e = some v := by
  have hpow : v < 10 ^ 32 := by
    calc v < 2 ^ 64 := hv
    _ < 10 ^ 32 := by norm_num
  have hfold := mcU64DigitsAux_foldr 32 v hpow (by norm_num)
  have hrev : (mcU64Digits v).reverse.foldl (fun x d => x * 10 + d) 0 = v := by
    rw [List.foldl_reverse]
    exact hfold
  have hne : mcU64Digits v ≠ [] := mcU64DigitsAux_ne_nil 32 v (by norm_num)
  have hvalue : e.value = (mcU64Digits v).reverse.map (fun d => Char.ofNat (48 + d)) := by
    rw [he]
    unfold mcU64Repr
    rw [List.map_reverse]
  unfold mcEntryValueU64
  rw [if_neg (by
    rw [hvalue]
    simp only [List.length_map, List.length_reverse]
    intro hlen
    exact hne (List.eq_nil_of_length_eq_zero hlen))]
  rw [hvalue]
  rw [mcValueU64Loop_digits ((mcU64Digits v).reverse) 0
    (fun d hd => mcU64DigitsAux_lt 32 v d (List.mem_reverse.mp hd))
    (by rw [hrev]; exact hv)]
  rw [hrev]

/-- Claim C10: for an existing entry whose value is the decimal text of a
64-bit `v`, `decr k d` stores the decimal text of `v - d` when `v > d`
and of `0` otherwise (clamped, never wrapping below zero), and returns
the new entry as the command's value result. -/
theorem mc_process_decr_clamps (g : MCGlobal) (k : List Char) (d v : Nat)
    (hv : v < 2 ^ 64) (e : MCEntry)
    (hl : mcTableLookup g.table (mcTableKeyIndex g.table k) k = some e)
    (he : e.value = mcU64Repr v) :
    ∃ e', (mcProcessDecr g { key := k, value := d, noreply := false }).2 = MCResult.VALUE e' ∧
      mcTableLookup (mcProcessDecr g { key := k, value := d, noreply := false }).1.table
        (mcTableKeyIndex (mcProcessDecr g { key := k, value := d, noreply := false }).1.table k) k
        = some e' ∧
      e'.value = mcU64Repr (if v > d then v - d else 0) := by
  have hparse : mcEntryValueU64 e = some v := mcEntryValueU64_repr e v hv he
  have hstep : mcProcessDecr g { key := k, value := d, noreply := false } =
      ({ table := mcTableInsert
            (mcTableRemove g.table (mcTableKeyIndex g.table k) k).2
            (mcTableKeyIndex g.table k)
            { key := k, value := mcU64Repr (if v > d then v - d else 0),
              flags := e.flags, cas := (g.cas + 1) % 2 ^ 64 },
         cas := (g.cas + 1) % 2 ^ 64 },
       MCResult.VALUE
         { key := k, value := mcU64Repr (if v > d then v - d else 0),
           flags := e.flags, cas := (g.cas + 1) % 2 ^ 64 }) := by
    simp [mcProcessDecr, hl, hparse, mcEntryCreateU64, mcEntryCreate]
  refine ⟨{ key := k, value := mcU64Repr (if v > d then v - d else 0),
            flags := e.flags, cas := (g.cas + 1) % 2 ^ 64 }, ?_, ?_, rfl⟩
  · rw [hstep]
  · have hidx2 : mcTableKeyIndex
        (mcTableInsert (mcTableRemove g.table (mcTableKeyIndex g.table k) k).2
          (mcTableKeyIndex g.table k)
          { key := k, value := mcU64Repr (if v > d then v - d else 0),
            flags := e.flags, cas := (g.cas + 1) % 2 ^ 64 }) k
        = mcTableKeyIndex g.table k := by
      apply mcTableKeyIndex_congr
      · rw [mcTableInsert_mask, mcTableRemove_mask]
      · rw [mcTableInsert_used, mcTableRemove_used]
    rw [hstep]
    dsimp only []
    rw [hidx2]
    exact mcTableLookup_insert_self _ _ _ _ rfl

theorem mc_process_decr_clamps_witness :
    ((7 : Nat) < 2 ^ 64 ∧
     mcTableLookup (mcProcessSet { table := mcTableInit, cas := 0 }
         { key := ['k'], flags := 0, exptime := 0, value := ['7'], noreply := false }).1.table
       (mcTableKeyIndex (mcProcessSet { table := mcTableInit, cas := 0 }
           { key := ['k'], flags := 0, exptime := 0, value := ['7'], noreply := false }).1.table ['k']) ['k']
       = some { key := ['k'], value := ['7'], flags := 0, cas := 1 } ∧
     ({ key := ['k'], value := ['7'], flags := 0, cas := 1 } : MCEntry).value = mcU64Repr 7) ∧
    (∃ e', (mcProcessDecr (mcProcessSet { table := mcTableInit, cas := 0 }
         { key := ['k'], flags := 0, exptime := 0, value := ['7'], noreply := false }).1
         { key := ['k'], value := 3, noreply := false }).2 = MCResult.VALUE e' ∧
      mcTableLookup (mcProcessDecr (mcProcessSet { table := mcTableInit, cas := 0 }
           { key := ['k'], flags := 0, exptime := 0, value := ['7'], noreply := false }).1
           { key := ['k'], value := 3, noreply := false }).1.table
        (mcTableKeyIndex (mcProcessDecr (mcProcessSet { table := mcTableInit, cas := 0 }
             { key := ['k'], flags := 0, exptime := 0, value := ['7'], noreply := false }).1
             { key := ['k'], value := 3, noreply := false }).1.table ['k']) ['k']
        = some e' ∧
      e'.value = mcU64Repr (if 7 > 3 then 7 - 3 else 0)) :=
  ⟨⟨by decide, by decide, by decide⟩,
   mc_process_decr_clamps
     (mcProcessSet { table := mcTableInit, cas := 0 }
       { key := ['k'], flags := 0, exptime := 0, value := ['7'], noreply := false }).1
     ['k'] 3 7 (by decide) { key := ['k'], value := ['7'], flags := 0, cas := 1 }
     (by decide) (by decide)⟩

/-- Claim C7: after `set k 0 0 1` with payload `0`, `incr k 1` returns the
numeric new value `1` (a value result whose entry text is `1`);
`incr`/`decr` on an existing non-numeric entry (payload `abc`) reply
`CLIENT_ERROR cannot increment or decrement non-numeric value`; and on an
absent key they reply `NOT_FOUND`. -/
theorem mc_process_incr_decr_replies (g : MCGlobal) (k : List Char) (d : Nat)
    (hnone : mcTableLookup g.table (mcTableKeyIndex g.table k) k = Option.none) :
    (∃ e', (mcProcessIncr (mcProcessSet g { key := k, flags := 0, exptime := 0, value := ['0'], noreply := false }).1
        { key := k, value := 1, noreply := false }).2 = MCResult.VALUE e' ∧
      e'.value = ['1']) ∧
    ((mcProcessIncr (mcProcessSet g { key := k, flags := 0, exptime := 0, value := ['a', 'b', 'c'], noreply := false }).1
        { key := k, value := d, noreply := false }).2 =
      MCResult.REPLY ("CLIENT_ERROR cannot increment or decrement non-numeric value\r\n".toList)) ∧
    ((mcProcessDecr (mcProcessSet g { key := k, flags := 0, exptime := 0, value := ['a', 'b', 'c'], noreply := false }).1
        { key := k, value := d, noreply := false }).2 =
      MCResult.REPLY ("CLIENT_ERROR cannot increment or decrement non-numeric value\r\n".toList)) ∧
    ((mcProcessIncr g { key := k, value := d, noreply := false }).2 =
      MCResult.REPLY ("NOT_FOUND\r\n".toList)) ∧
    ((mcProcessDecr g { key := k, value := d, noreply := false }).2 =
      MCResult.REPLY ("NOT_FOUND\r\n".toList)) := by
  have hlook : ∀ w : List Char, mcTableLookup
      (mcProcessSet g { key := k, flags := 0, exptime := 0, value := w, noreply := false }).1.table
      (mcTableKeyIndex (mcProcessSet g { key := k, flags := 0, exptime := 0, value := w, noreply := false }).1.table k) k
      = some { key := k, value := w, flags := 0, cas := (g.cas + 1) % 2 ^ 64 } := by
    intro w
    have hst : (mcProcessSet g { key := k, flags := 0, exptime := 0, value := w, noreply := false }).1.table
        = mcTableInsert (mcTableRemove g.table (mcTableKeyIndex g.table k) k).2
            (mcTableKeyIndex g.table k)
            { key := k, value := w, flags := 0, cas := (g.cas + 1) % 2 ^ 64 } := rfl
    have hidx : mcTableKeyIndex (mcProcessSet g { key := k, flags := 0, exptime := 0, value := w, noreply := false }).1.table k
        = mcTableKeyIndex g.table k := by
      apply mcTableKeyIndex_congr
      · rw [hst, mcTableInsert_mask, mcTableRemove_mask]
      · rw [hst, mcTableInsert_used, mcTableRemove_used]
    rw [hidx, hst]
    exact mcTableLookup_insert_self _ _ _ _ rfl
  refine ⟨?_, ?_, ?_, ?_, ?_⟩
  · have h0 : ∀ c : Nat, mcEntryValueU64 { key := k, value := ['0'], flags := 0, cas := c } = some 0 :=
      fun _ => rfl
    refine ⟨{ key := k, value := mcU64Repr ((0 + 1) % 2 ^ 64), flags := 0,
              cas := ((mcProcessSet g { key := k, flags := 0, exptime := 0, value := ['0'], noreply := false }).1.cas + 1) % 2 ^ 64 }, ?_, rfl⟩
    simp [mcProcessIncr, hlook ['0'], h0, mcEntryCreateU64, mcEntryCreate]
  · have habc : ∀ c : Nat, mcEntryValueU64 { key := k, value := ['a', 'b', 'c'], flags := 0, cas := c } = Option.none :=
      fun _ => rfl
    simp [mcProcessIncr, hlook ['a', 'b', 'c'], habc]
  · have habc : ∀ c : Nat, mcEntryValueU64 { key := k, value := ['a', 'b', 'c'], flags := 0, cas := c } = Option.none :=
      fun _ => rfl
    simp [mcProcessDecr, hlook ['a', 'b', 'c'], habc]
  · simp [mcProcessIncr, hnone]
  · simp [mcProcessDecr, hnone]

theorem mc_process_incr_decr_replies_witness :
    mcTableLookup ({ table := mcTableInit, cas := 0 } : MCGlobal).table
      (mcTableKeyIndex ({ table := mcTableInit, cas := 0 } : MCGlobal).table ['q']) ['q']
      = Option.none ∧
    ((∃ e', (mcProcessIncr (mcProcessSet { table := mcTableInit, cas := 0 }
         { key := ['q'], flags := 0, exptime := 0, value := ['0'], noreply := false }).1
         { key := ['q'], value := 1, noreply := false }).2 = MCResult.VALUE e' ∧
       e'.value = ['1']) ∧
     ((mcProcessIncr (mcProcessSet { table := mcTableInit, cas := 0 }
         { key := ['q'], flags := 0, exptime := 0, value := ['a', 'b', 'c'], noreply := false }).1
         { key := ['q'], value := 5, noreply := false }).2 =
       MCResult.REPLY ("CLIENT_ERROR cannot increment or decrement non-numeric value\r\n".toList)) ∧
     ((mcProcessDecr (mcProcessSet { table := mcTableInit, cas := 0 }
         { key := ['q'], flags := 0, exptime := 0, value := ['a', 'b', 'c'], noreply := false }).1
         { key := ['q'], value := 5, noreply := false }).2 =
       MCResult.REPLY ("CLIENT_ERROR cannot increment or decrement non-numeric value\r\n".toList)) ∧
     ((mcProcessIncr { table := mcTableInit, cas := 0 }
         { key := ['q'], value := 5, noreply := false }).2 =
       MCResult.REPLY ("NOT_FOUND\r\n".toList)) ∧
     ((mcProcessDecr { table := mcTableInit, cas := 0 }
         { key := ['q'], value := 5, noreply := false }).2 =
       MCResult.REPLY ("NOT_FOUND\r\n".toList))) :=
  ⟨by decide,
   mc_process_incr_decr_replies { table := mcTableInit, cas := 0 } ['q'] 5 (by decide)⟩

/-- Claim C6: `cas` stores its new value iff an entry for the key exists
and its CAS stamp equals the request's stamp `S` (reply `STORED`; reply
`EXISTS` on a stamp mismatch and `NOT_FOUND` when no entry exists); the
newly stored entry's stamp is `cas_counter + 1`, strictly greater than
`S`; and stamps assigned at entry creation strictly exceed every stamp
already present, so they are monotonically increasing (as 64-bit values,
short of wrap-around, hence the `cas + 1 < 2^64` hypothesis). -/
theorem mc_process_cas_stamp_spec (g : MCGlobal) (p : MCCasParams)
    (hnr : p.noreply = false)
    (hw : ∀ i e, e ∈ g.table.table i → e.cas ≤ g.cas)
    (hc : g.cas + 1 < 2 ^ 64) :
    (∀ oe, mcTableLookup g.table (mcTableKeyIndex g.table p.key) p.key = some oe →
       oe.cas = p.cas →
       ((mcProcessCas g p).2 = MCResult.REPLY ("STORED\r\n".toList) ∧
        ∃ ne, mcTableLookup (mcProcessCas g p).1.table
            (mcTableKeyIndex (mcProcessCas g p).1.table p.key) p.key = some ne ∧
          ne.value = p.value ∧ ne.cas = g.cas + 1 ∧ p.cas < ne.cas)) ∧
    (∀ oe, mcTableLookup g.table (mcTableKeyIndex g.table p.key) p.key = some oe →
       oe.cas ≠ p.cas →
       ((mcProcessCas g p).2 = MCResult.REPLY ("EXISTS\r\n".toList) ∧
        (mcProcessCas g p).1.table = g.table)) ∧
    (mcTableLookup g.table (mcTableKeyIndex g.table p.key) p.key = Option.none →
       ((mcProcessCas g p).2 = MCResult.REPLY ("NOT_FOUND\r\n".toList) ∧
        (mcProcessCas g p).1.table = g.table)) ∧
    (∀ key value, ((mcEntryCreate g key value).2).cas = g.cas + 1 ∧
       ((mcEntryCreate g key value).1).cas = g.cas + 1 ∧
       ∀ i e, e ∈ g.table.table i → e.cas < ((mcEntryCreate g key value).2).cas) := by
  have hmod : (g.cas + 1) % 2 ^ 64 = g.cas + 1 := Nat.mod_eq_of_lt hc
  refine ⟨?_, ?_, ?_, ?_⟩
  · intro oe hoe hcas
    have hstep : mcProcessCas g p =
        ({ table := mcTableInsert (mcTableRemove g.table (mcTableKeyIndex g.table p.key) p.key).2
              (mcTableKeyIndex g.table p.key)
              { key := p.key, value := p.value, flags := p.flags, cas := (g.cas + 1) % 2 ^ 64 },
           cas := (g.cas + 1) % 2 ^ 64 },
         MCResult.REPLY ("STORED\r\n".toList)) := by
      simp [mcProcessCas, hoe, hcas, hnr, mcEntryCreate]
    refine ⟨by rw [hstep], ?_⟩
    refine ⟨{ key := p.key, value := p.value, flags := p.flags, cas := (g.cas + 1) % 2 ^ 64 }, ?_, rfl, by rw [hmod], ?_⟩
    · have hidx2 : mcTableKeyIndex
          (mcTableInsert (mcTableRemove g.table (mcTableKeyIndex g.table p.key) p.key).2
            (mcTableKeyIndex g.table p.key)
            { key := p.key, value := p.value, flags := p.flags, cas := (g.cas + 1) % 2 ^ 64 }) p.key
          = mcTableKeyIndex g.table p.key := by
        apply mcTableKeyIndex_congr
        · rw [mcTableInsert_mask, mcTableRemove_mask]
        · rw [mcTableInsert_used, mcTableRemove_used]
      rw [hstep]
      dsimp only []
      rw [hidx2]
      exact mcTableLookup_insert_self _ _ _ _ rfl
    · have hole : oe ∈ g.table.table (mcTableKeyIndex g.table p.key) :=
        List.mem_of_find?_eq_some hoe
      have : oe.cas ≤ g.cas := hw _ _ hole
      dsimp only []
      rw [hmod]
      omega
  · intro oe hoe hcas
    have hstep : mcProcessCas g p = (g, MCResult.REPLY ("EXISTS\r\n".toList)) := by
      simp [mcProcessCas, hoe, hcas, hnr]
    exact ⟨by rw [hstep], by rw [hstep]⟩
  · intro hno
    have hstep : mcProcessCas g p = (g, MCResult.REPLY ("NOT_FOUND\r\n".toList)) := by
      simp [mcProcessCas, hno, hnr]
    exact ⟨by rw [hstep], by rw [hstep]⟩
  · intro key value
    refine ⟨by simp only [mcEntryCreate]; exact hmod, by simp only [mcEntryCreate]; exact hmod, ?_⟩
    intro i e he
    have : e.cas ≤ g.cas := hw i e he
    simp only [mcEntryCreate, hmod]
    omega

theorem mc_process_cas_stamp_spec_witness :
    (({ key := ['k'], flags := 0, exptime := 0, value := ['b'], cas := 1,
        noreply := false } : MCCasParams).noreply = false ∧
     (∀ i e, e ∈ ({ table := mcTableInit, cas := 0 } : MCGlobal).table.table i →
        e.cas ≤ ({ table := mcTableInit, cas := 0 } : MCGlobal).cas) ∧
     ({ table := mcTableInit, cas := 0 } : MCGlobal).cas + 1 < 2 ^ 64) ∧
    (mcTableLookup ({ table := mcTableInit, cas := 0 } : MCGlobal).table
        (mcTableKeyIndex ({ table := mcTableInit, cas := 0 } : MCGlobal).table ['k']) ['k']
        = Option.none →
      ((mcProcessCas { table := mcTableInit, cas := 0 }
          { key := ['k'], flags := 0, exptime := 0, value := ['b'], cas := 1,
            noreply := false }).2 = MCResult.REPLY ("NOT_FOUND\r\n".toList) ∧
       (mcProcessCas { table := mcTableInit, cas := 0 }
          { key := ['k'], flags := 0, exptime := 0, value := ['b'], cas := 1,
            noreply := false }).1.table =
         ({ table := mcTableInit, cas := 0 } : MCGlobal).table)) ∧
    (∀ key value,
       ((mcEntryCreate { table := mcTableInit, cas := 0 } key value).2).cas = 0 + 1 ∧
       ((mcEntryCreate { table := mcTableInit, cas := 0 } key value).1).cas = 0 + 1 ∧
       ∀ i e, e ∈ ({ table := mcTableInit, cas := 0 } : MCGlobal).table.table i →
         e.cas < ((mcEntryCreate { table := mcTableInit, cas := 0 } key value).2).cas) :=
  have hvac : ∀ i e, e ∈ ({ table := mcTableInit, cas := 0 } : MCGlobal).table.table i →
      e.cas ≤ ({ table := mcTableInit, cas := 0 } : MCGlobal).cas :=
    fun _ e he => absurd he (List.not_mem_nil e)
  have h := mc_process_cas_stamp_spec { table := mcTableInit, cas := 0 }
    { key := ['k'], flags := 0, exptime := 0, value := ['b'], cas := 1, noreply := false }
    rfl hvac (by decide)
  ⟨⟨rfl, hvac, by decide⟩, h.2.2.1, h.2.2.2⟩

theorem mcDropThroughLF_some : ∀ (seg suffix : List Char),
    mcDropThroughLF seg = some suffix →
    ∃ pre, seg = pre ++ '\n' :: suffix ∧ '\n' ∉ pre := by
  intro seg
  induction seg with
  | nil => intro suffix h; simp [mcDropThroughLF] at h
  | cons c cs ih =>
    intro suffix h
    rw [mcDropThroughLF] at h
    by_cases hc : c = '\n'
    · rw [if_pos hc] at h
      obtain rfl := Option.some.inj h
      exact ⟨[], by simp [hc], by simp⟩
    · rw [if_neg hc] at h
      obtain ⟨pre, h1, h2⟩ := ih suffix h
      refine ⟨c :: pre, by simp [h1], ?_⟩
      simp only [List.mem_cons, not_or]
      exact ⟨fun hx => hc hx.symm, h2⟩

theorem mcDropThroughLF_none : ∀ (seg : List Char),
    mcDropThroughLF seg = Option.none → '\n' ∉ seg := by
  intro seg
  induction seg with
  | nil => intro _ h; simp at h
  | cons c cs ih =>
    intro h
    rw [mcDropThroughLF] at h
    by_cases hc : c = '\n'
    · rw [if_pos hc] at h; simp at h
    · rw [if_neg hc] at h
      simp only [List.mem_cons]
      rintro (h1 | h1)
      · exact hc h1.symm
      · exact ih h h1

theorem mcSkipToLF_some : ∀ (segs segs' : List (List Char)),
    mcSkipToLF segs = some segs' →
    ∃ pre, segs.flatten = pre ++ '\n' :: segs'.flatten ∧ '\n' ∉ pre := by
  intro segs
  induction segs with
  | nil => intro segs' h; simp [mcSkipToLF] at h
  | cons seg rest ih =>
    intro segs' h
    rw [mcSkipToLF] at h
    cases hd : mcDropThroughLF seg with
    | some suffix =>
      rw [hd] at h
      obtain rfl := Option.some.inj h
      obtain ⟨pre, h1, h2⟩ := mcDropThroughLF_some seg suffix hd
      exact ⟨pre, by simp [h1], h2⟩
    | none =>
      rw [hd] at h
      obtain ⟨pre, h1, h2⟩ := ih segs' h
      refine ⟨seg ++ pre, by simp [h1], ?_⟩
      have hseg := mcDropThroughLF_none seg hd
      simp [hseg, h2]

theorem mcSkipToLF_none : ∀ (segs : List (List Char)),
    mcSkipToLF segs = Option.none → '\n' ∉ segs.flatten := by
  intro segs
  induction segs with
  | nil => intro _; simp
  | cons seg rest ih =>
    intro h
    rw [mcSkipToLF] at h
    cases hd : mcDropThroughLF seg with
    | some suffix => rw [hd] at h; simp at h
    | none =>
      rw [hd] at h
      have hseg := mcDropThroughLF_none seg hd
      simp [hseg, ih h]

/-- Claim C8: on a parse failure `mc_parse_error` consumes the input up
to and including the next LF, stores the `ERROR`/`CLIENT_ERROR` reply as
the command's result and returns true with the connection not marked to
quit (so parsing of subsequent commands continues); with no LF in the
buffered input it returns false (more data needed) leaving the result and
quit flag untouched; and `mc_more_input` with more than 1024 scanned junk
characters sets the command result to `QUIT` and marks the connection to
quit, while at or below 1024 it merely advances to the next segment. -/
theorem mc_parse_failure_recovery (p : MCParseState) (err : List Char) (count : Nat) :
    (('\n' ∈ p.segs.flatten →
       (mcParseFail p err).1 = true ∧
       (mcParseFail p err).2.resultType = MCResult.REPLY err ∧
       (mcParseFail p err).2.quit = p.quit ∧
       ∃ pre, p.segs.flatten = pre ++ '\n' :: (mcParseFail p err).2.segs.flatten ∧
         '\n' ∉ pre) ∧
     ('\n' ∉ p.segs.flatten →
       (mcParseFail p err).1 = false ∧
       (mcParseFail p err).2.resultType = p.resultType ∧
       (mcParseFail p err).2.quit = p.quit)) ∧
    ((count > 1024 →
       (mcMoreInput p count).1 = false ∧
       (mcMoreInput p count).2.resultType = MCResult.QUIT ∧
       (mcMoreInput p count).2.quit = true) ∧
     (count ≤ 1024 →
       (mcMoreInput p count).2.resultType = p.resultType ∧
       (mcMoreInput p count).2.quit = p.quit)) := by
  refine ⟨⟨?_, ?_⟩, ?_, ?_⟩
  · intro hin
    cases hs : mcSkipToLF p.segs with
    | some segs' =>
      obtain ⟨pre, h1, h2⟩ := mcSkipToLF_some p.segs segs' hs
      refine ⟨by simp [mcParseFail, hs], by simp [mcParseFail, hs], by simp [mcParseFail, hs], ?_⟩
      refine ⟨pre, ?_, h2⟩
      have : (mcParseFail p err).2.segs = segs' := by simp [mcParseFail, hs]
      rw [this]
      exact h1
    | none => exact absurd hin (mcSkipToLF_none p.segs hs)
  · intro hout
    cases hs : mcSkipToLF p.segs with
    | some segs' =>
      obtain ⟨pre, h1, _⟩ := mcSkipToLF_some p.segs segs' hs
      exact absurd (by rw [h1]; simp : '\n' ∈ p.segs.flatten) hout
    | none =>
      exact ⟨by simp [mcParseFail, hs], by simp [mcParseFail, hs], by simp [mcParseFail, hs]⟩
  · intro hgt
    refine ⟨?_, ?_, ?_⟩ <;> simp [mcMoreInput, hgt]
  · intro hle
    have hngt : ¬ count > 1024 := by omega
    constructor <;>
      · simp only [mcMoreInput, if_neg hngt]
        cases p.segs with
        | nil => rfl
        | cons a rest => cases rest <;> rfl

theorem mc_parse_failure_recovery_witness :
    ('\n' ∈ (({ segs := [['g', 'i'], ['m', 'e', '\n', 's', 'e']], resultType := MCResult.NONE, quit := false, error := false } : MCParseState)).segs.flatten ∧
      (2000 : Nat) > 1024) ∧
    ((mcParseFail { segs := [['g', 'i'], ['m', 'e', '\n', 's', 'e']], resultType := MCResult.NONE, quit := false, error := false } ("ERROR\r\n".toList)).1 = true ∧
     (mcParseFail { segs := [['g', 'i'], ['m', 'e', '\n', 's', 'e']], resultType := MCResult.NONE, quit := false, error := false } ("ERROR\r\n".toList)).2.resultType = MCResult.REPLY ("ERROR\r\n".toList) ∧
     (mcParseFail { segs := [['g', 'i'], ['m', 'e', '\n', 's', 'e']], resultType := MCResult.NONE, quit := false, error := false } ("ERROR\r\n".toList)).2.quit = false ∧
     ∃ pre, (({ segs := [['g', 'i'], ['m', 'e', '\n', 's', 'e']], resultType := MCResult.NONE, quit := false, error := false } : MCParseState)).segs.flatten =
         pre ++ '\n' :: (mcParseFail { segs := [['g', 'i'], ['m', 'e', '\n', 's', 'e']], resultType := MCResult.NONE, quit := false, error := false } ("ERROR\r\n".toList)).2.segs.flatten ∧
         '\n' ∉ pre) ∧
    ((mcMoreInput { segs := [['g', 'i'], ['m', 'e', '\n', 's', 'e']], resultType := MCResult.NONE, quit := false, error := false } 2000).1 = false ∧
     (mcMoreInput { segs := [['g', 'i'], ['m', 'e', '\n', 's', 'e']], resultType := MCResult.NONE, quit := false, error := false } 2000).2.resultType = MCResult.QUIT ∧
     (mcMoreInput { segs := [['g', 'i'], ['m', 'e', '\n', 's', 'e']], resultType := MCResult.NONE, quit := false, error := false } 2000).2.quit = true) :=
  have h := mc_parse_failure_recovery
    { segs := [['g', 'i'], ['m', 'e', '\n', 's', 'e']], resultType := MCResult.NONE, quit := false, error := false }
    ("ERROR\r\n".toList) 2000
  ⟨⟨by decide, by decide⟩, h.1.1 (by decide), h.2.1 (by decide)⟩

theorem mcTableIndex_arith (t : MCTable) (k : Nat)
    (hsz : t.size = 2 ^ (k + 1)) (hmask : t.mask = t.size - 1) (h : Nat) :
    mcTableIndex t h = mcIndexArith t.size t.used h := by
  have hpos : 0 < (2 : Nat) ^ k := Nat.pos_pow_of_pos k (by norm_num)
  have hS : (2 : Nat) ^ (k + 1) = 2 * 2 ^ k := by ring
  have hmand : h &&& t.mask = h % t.size := by
    rw [hmask, hsz]
    exact Nat.and_pow_two_sub_one_eq_mod h (k + 1)
  have hshift : t.mask >>> 1 = 2 ^ k - 1 := by
    rw [hmask, hsz, Nat.shiftRight_eq_div_pow]
    omega
  have hS2 : t.size / 2 = 2 ^ k := by rw [hsz]; omega
  unfold mcTableIndex mcIndexArith
  dsimp only []
  rw [hmand, hshift, hS2]
  by_cases hlt : h % t.size < t.used
  · rw [if_neg (by omega), if_pos hlt]
  · rw [if_pos (by omega), if_neg hlt]
    rw [hsz]
    have : h % 2 ^ (k + 1) &&& 2 ^ k - 1 = h % 2 ^ (k + 1) % 2 ^ k :=
      Nat.and_pow_two_sub_one_eq_mod _ k
    rw [this]
    exact Nat.mod_mod_of_dvd h ⟨2, by omega⟩

theorem mcSplitChain_eq (mask source : Nat) (chain : List MCEntry) :
    mcSplitChain mask source chain =
      ((chain.filter (fun e => decide (mcHash e.key &&& mask = source))).reverse,
       (chain.filter (fun e => !decide (mcHash e.key &&& mask = source))).reverse) := by
  have gen : ∀ (l : List MCEntry) (acc : List MCEntry × List MCEntry),
      l.foldl
        (fun acc e =>
          if mcHash e.key &&& mask = source then (e :: acc.1, acc.2)
          else (acc.1, e :: acc.2)) acc =
      ((l.filter (fun e => decide (mcHash e.key &&& mask = source))).reverse ++ acc.1,
       (l.filter (fun e => !decide (mcHash e.key &&& mask = source))).reverse ++ acc.2) := by
    intro l
    induction l with
    | nil => intro acc; simp
    | cons e l ih =>
      intro acc
      by_cases he : mcHash e.key &&& mask = source
      · simp [he, ih]
      · simp [he, ih]
  unfold mcSplitChain
  rw [gen]
  simp

theorem mcSplitChain_mem_fst (mask source : Nat) (chain : List MCEntry) (e : MCEntry) :
    e ∈ (mcSplitChain mask source chain).1 ↔
      e ∈ chain ∧ mcHash e.key &&& mask = source := by
  rw [mcSplitChain_eq]
  simp

theorem mcSplitChain_mem_snd (mask source : Nat) (chain : List MCEntry) (e : MCEntry) :
    e ∈ (mcSplitChain mask source chain).2 ↔
      e ∈ chain ∧ ¬ mcHash e.key &&& mask = source := by
  rw [mcSplitChain_eq]
  simp

theorem mcSplitStep_placed (k u : Nat) (tab : Nat → List MCEntry)
    (hu1 : 2 ^ k ≤ u) (hu2 : u < 2 ^ (k + 1))
    (hp : mcPlaced (2 ^ (k + 1)) u tab) :
    mcPlaced (2 ^ (k + 1)) (u + 1)
      (fun i =>
        if i = u then (mcSplitChain (2 ^ (k + 1) - 1) (u - 2 ^ k) (tab (u - 2 ^ k))).2
        else if i = u - 2 ^ k then
          (mcSplitChain (2 ^ (k + 1) - 1) (u - 2 ^ k) (tab (u - 2 ^ k))).1
        else tab i) ∧
    (∀ i e, e ∈ tab i →
      e ∈ (fun i =>
        if i = u then (mcSplitChain (2 ^ (k + 1) - 1) (u - 2 ^ k) (tab (u - 2 ^ k))).2
        else if i = u - 2 ^ k then
          (mcSplitChain (2 ^ (k + 1) - 1) (u - 2 ^ k) (tab (u - 2 ^ k))).1
        else tab i) (mcIndexArith (2 ^ (k + 1)) (u + 1) (mcHash e.key))) := by
  have hpos : 0 < (2 : Nat) ^ k := Nat.pos_pow_of_pos k (by norm_num)
  have hS : (2 : Nat) ^ (k + 1) = 2 * 2 ^ k := by ring
  have hSpos : 0 < (2 : Nat) ^ (k + 1) := by omega
  have hS2 : (2 : Nat) ^ (k + 1) / 2 = 2 ^ k := by omega
  have hsrc_ne : u - 2 ^ k ≠ u := by omega
  -- the bucket index of any hash, in both forms
  have hand : ∀ h : Nat, h &&& 2 ^ (k + 1) - 1 = h % 2 ^ (k + 1) :=
    fun h => Nat.and_pow_two_sub_one_eq_mod h (k + 1)
  have hmodlt : ∀ h : Nat, h % 2 ^ (k + 1) < 2 ^ (k + 1) :=
    fun h => Nat.mod_lt _ hSpos
  have hmodmod : ∀ h : Nat, h % 2 ^ (k + 1) % 2 ^ k = h % 2 ^ k :=
    fun h => Nat.mod_mod_of_dvd h ⟨2, by omega⟩
  have hsubmod : ∀ x : Nat, 2 ^ k ≤ x → x < 2 ^ (k + 1) → x % 2 ^ k = x - 2 ^ k := by
    intro x h1 h2
    rw [Nat.mod_eq_sub_mod h1, Nat.mod_eq_of_lt (by omega)]
  -- every entry of the source chain hashes to source or to target
  have mem_cases : ∀ e, e ∈ tab (u - 2 ^ k) →
      mcHash e.key % 2 ^ (k + 1) = u - 2 ^ k ∨ mcHash e.key % 2 ^ (k + 1) = u := by
    intro e he
    have hid := hp _ e he
    unfold mcIndexArith at hid
    rw [hS2] at hid
    by_cases hx : mcHash e.key % 2 ^ (k + 1) < u
    · rw [if_pos hx] at hid
      exact Or.inl hid
    · rw [if_neg hx] at hid
      push_neg at hx
      right
      have h3 : 2 ^ k ≤ mcHash e.key % 2 ^ (k + 1) := le_trans hu1 hx
      have h4 := hsubmod _ h3 (hmodlt (mcHash e.key))
      have h5 := hmodmod (mcHash e.key)
      omega
  -- index of an entry whose hash-index is an untouched bucket is unchanged
  have untouched : ∀ (e : MCEntry) (i : Nat), i ≠ u → i ≠ u - 2 ^ k →
      mcIndexArith (2 ^ (k + 1)) u (mcHash e.key) = i →
      mcIndexArith (2 ^ (k + 1)) (u + 1) (mcHash e.key) = i := by
    intro e i hiu hisrc hid
    unfold mcIndexArith at hid ⊢
    rw [hS2] at hid ⊢
    by_cases hx : mcHash e.key % 2 ^ (k + 1) < u
    · rw [if_pos hx] at hid
      rw [if_pos (by omega)]
      exact hid
    · rw [if_neg hx] at hid
      push_neg at hx
      by_cases hxu : mcHash e.key % 2 ^ (k + 1) = u
      · exfalso
        apply hisrc
        have h3 : 2 ^ k ≤ mcHash e.key % 2 ^ (k + 1) := le_trans hu1 hx
        have h4 := hsubmod _ h3 (hmodlt (mcHash e.key))
        have h5 := hmodmod (mcHash e.key)
        omega
      · rw [if_neg (by omega)]
        exact hid
  constructor
  · -- placement of the new table under used + 1
    intro i e he
    dsimp only [] at he
    by_cases hiu : i = u
    · subst hiu
      rw [if_pos rfl] at he
      rw [mcSplitChain_mem_snd] at he
      obtain ⟨hchain, hne⟩ := he
      rw [hand] at hne
      rcases mem_cases e hchain with h | h
      · exact absurd h hne
      · unfold mcIndexArith
        rw [if_pos (by omega)]
        exact h
    · rw [if_neg hiu] at he
      by_cases hisrc : i = u - 2 ^ k
      · subst hisrc
        rw [if_pos rfl] at he
        rw [mcSplitChain_mem_fst] at he
        obtain ⟨hchain, heq⟩ := he
        rw [hand] at heq
        unfold mcIndexArith
        rw [if_pos (by omega)]
        exact heq
      · rw [if_neg hisrc] at he
        exact untouched e i hiu hisrc (hp i e he)
  · -- every old entry is still present, at its new index
    intro i e he
    dsimp only []
    by_cases hisrc : i = u - 2 ^ k
    · subst hisrc
      rcases mem_cases e he with h | h
      · have hidx : mcIndexArith (2 ^ (k + 1)) (u + 1) (mcHash e.key) = u - 2 ^ k := by
          unfold mcIndexArith
          rw [if_pos (by omega)]
          exact h
        rw [hidx, if_neg hsrc_ne, if_pos rfl, mcSplitChain_mem_fst, hand]
        exact ⟨he, h⟩
      · have hidx : mcIndexArith (2 ^ (k + 1)) (u + 1) (mcHash e.key) = u := by
          unfold mcIndexArith
          rw [if_pos (by omega)]
          exact h
        rw [hidx, if_pos rfl, mcSplitChain_mem_snd, hand]
        exact ⟨he, by omega⟩
    · by_cases hiu : i = u
      · exfalso
        have hid := hp i e he
        rw [hiu] at hid
        unfold mcIndexArith at hid
        rw [hS2] at hid
        by_cases hx : mcHash e.key % 2 ^ (k + 1) < u
        · rw [if_pos hx] at hid
          omega
        · rw [if_neg hx] at hid
          have : mcHash e.key % 2 ^ k < 2 ^ k := Nat.mod_lt _ hpos
          omega
      · have hidx := untouched e i hiu hisrc (hp i e he)
        rw [hidx, if_neg hiu, if_neg hisrc]
        exact he

theorem mcStrideLoop_placed (k : Nat) :
    ∀ (c : Nat) (tab : Nat → List MCEntry) (u : Nat),
      2 ^ k ≤ u → u + c ≤ 2 ^ (k + 1) →
      mcPlaced (2 ^ (k + 1)) u tab →
      mcPlaced (2 ^ (k + 1)) (u + c)
        (mcStrideLoop (2 ^ (k + 1) - 1) tab (u - 2 ^ k) u c) ∧
      (∀ i e, e ∈ tab i →
        e ∈ (mcStrideLoop (2 ^ (k + 1) - 1) tab (u - 2 ^ k) u c)
          (mcIndexArith (2 ^ (k + 1)) (u + c) (mcHash e.key))) := by
  intro c
  induction c with
  | zero =>
    intro tab u hu1 hu2 hp
    refine ⟨by simpa using hp, ?_⟩
    intro i e he
    have := hp i e he
    simp only [mcStrideLoop, Nat.add_zero]
    rw [this]
    exact he
  | succ c ih =>
    intro tab u hu1 hu2 hp
    have hu2' : u < 2 ^ (k + 1) := by omega
    obtain ⟨hp1, hm1⟩ := mcSplitStep_placed k u tab hu1 hu2' hp
    have hsrc : u - 2 ^ k + 1 = u + 1 - 2 ^ k := by omega
    have hloop : mcStrideLoop (2 ^ (k + 1) - 1) tab (u - 2 ^ k) u (c + 1) =
        mcStrideLoop (2 ^ (k + 1) - 1)
          (fun i =>
            if i = u then (mcSplitChain (2 ^ (k + 1) - 1) (u - 2 ^ k) (tab (u - 2 ^ k))).2
            else if i = u - 2 ^ k then
              (mcSplitChain (2 ^ (k + 1) - 1) (u - 2 ^ k) (tab (u - 2 ^ k))).1
            else tab i)
          (u + 1 - 2 ^ k) (u + 1) c := by
      rw [mcStrideLoop]
      rw [hsrc]
    obtain ⟨hp2, hm2⟩ := ih
      (fun i =>
        if i = u then (mcSplitChain (2 ^ (k + 1) - 1) (u - 2 ^ k) (tab (u - 2 ^ k))).2
        else if i = u - 2 ^ k then
          (mcSplitChain (2 ^ (k + 1) - 1) (u - 2 ^ k) (tab (u - 2 ^ k))).1
        else tab i)
      (u + 1) (by omega) (by omega) hp1
    have harith : u + 1 + c = u + (c + 1) := by omega
    rw [harith] at hp2 hm2
    refine ⟨by rw [hloop]; exact hp2, ?_⟩
    intro i e he
    rw [hloop]
    exact hm2 _ e (hm1 i e he)

theorem mcExpand_placed (k : Nat) (tab : Nat → List MCEntry)
    (hp : mcPlaced (2 ^ (k + 1)) (2 ^ (k + 1)) tab) :
    mcPlaced (2 ^ (k + 2)) (2 ^ (k + 1)) tab := by
  intro i e he
  have hid := hp i e he
  have hpos : 0 < (2 : Nat) ^ (k + 1) := Nat.pos_pow_of_pos _ (by norm_num)
  have hmodlt : mcHash e.key % 2 ^ (k + 1) < 2 ^ (k + 1) := Nat.mod_lt _ hpos
  unfold mcIndexArith at hid
  rw [if_pos hmodlt] at hid
  have hS2 : (2 : Nat) ^ (k + 2) / 2 = 2 ^ (k + 1) := by
    have : (2 : Nat) ^ (k + 2) = 2 * 2 ^ (k + 1) := by ring
    omega
  have hmm : mcHash e.key % 2 ^ (k + 2) % 2 ^ (k + 1) = mcHash e.key % 2 ^ (k + 1) :=
    Nat.mod_mod_of_dvd _ ⟨2, by ring⟩
  unfold mcIndexArith
  rw [hS2]
  by_cases hx : mcHash e.key % 2 ^ (k + 2) < 2 ^ (k + 1)
  · rw [if_pos hx]
    rw [← hid, ← hmm, Nat.mod_eq_of_lt hx]
  · rw [if_neg hx]
    rw [← hid]

/-- Claim C4: a lookup of hash `h` examines exactly bucket `h & (size-1)`
when that index is below `used` and exactly `h & ((size-1) >> 1)`
otherwise (the arithmetic form `mcIndexArith`); and one step of
`mc_table_stride_routine` — doubling the area and `size`/`mask` first
when `used == size`, then splitting the chains of `MC_TABLE_STRIDE`
buckets starting at `used - size/2` between `source` and
`source + size/2`, then advancing `used` — preserves the placement
invariant, keeps every stored entry present at its computed index, and
re-establishes all the geometric side conditions, so entries remain
findable throughout striding. -/
theorem mc_table_striding_preserves_index (t : MCTable) (k : Nat)
    (hsz : t.size = 2 ^ (k + 1)) (hmask : t.mask = t.size - 1)
    (hk : 6 ≤ k)
    (hlow : t.size / 2 ≤ t.used)
    (hhigh : t.used = t.size ∨ t.used + mcTableStrideN ≤ t.size)
    (halign : t.used % mcTableStrideN = 0)
    (hplace : mcPlaced t.size t.used t.table) :
    (∀ h, mcTableIndex t h = mcIndexArith t.size t.used h) ∧
    mcPlaced (mcTableStrideRoutine t).size (mcTableStrideRoutine t).used
      (mcTableStrideRoutine t).table ∧
    (∀ i e, e ∈ t.table i →
      e ∈ (mcTableStrideRoutine t).table
        (mcTableIndex (mcTableStrideRoutine t) (mcHash e.key))) ∧
    (∃ kN, 6 ≤ kN ∧ (mcTableStrideRoutine t).size = 2 ^ (kN + 1) ∧
      (mcTableStrideRoutine t).mask = (mcTableStrideRoutine t).size - 1 ∧
      (mcTableStrideRoutine t).size / 2 ≤ (mcTableStrideRoutine t).used ∧
      ((mcTableStrideRoutine t).used = (mcTableStrideRoutine t).size ∨
       (mcTableStrideRoutine t).used + mcTableStrideN ≤ (mcTableStrideRoutine t).size) ∧
      (mcTableStrideRoutine t).used % mcTableStrideN = 0) := by
  have hpos : 0 < (2 : Nat) ^ k := Nat.pos_pow_of_pos k (by norm_num)
  have h64 : (64 : Nat) ≤ 2 ^ k := by
    calc (64 : Nat) = 2 ^ 6 := by norm_num
    _ ≤ 2 ^ k := Nat.pow_le_pow_right (by norm_num) hk
  have hdvd : (64 : Nat) ∣ 2 ^ k := by
    have h : (2 : Nat) ^ 6 ∣ 2 ^ k := pow_dvd_pow 2 hk
    simpa using h
  have hSeq : (2 : Nat) ^ (k + 1) = 2 * 2 ^ k := by ring
  have hS2eq : (2 : Nat) ^ (k + 2) = 2 * 2 ^ (k + 1) := by ring
  refine ⟨fun h => mcTableIndex_arith t k hsz hmask h, ?_⟩
  by_cases hused : t.used = t.size
  · -- expand first, then stride: the table doubles, `used` stays
    have huse : t.used = 2 ^ (k + 1) := by rw [hused, hsz]
    have hA1 : (mcTableStrideRoutine t).size = t.size * 2 := by
      unfold mcTableStrideRoutine
      dsimp only []
      rw [if_pos hused]
      unfold mcTableStride mcTableExpand
      dsimp only []
      split <;> rfl
    have hA2 : (mcTableStrideRoutine t).mask = t.size * 2 - 1 := by
      unfold mcTableStrideRoutine
      dsimp only []
      rw [if_pos hused]
      unfold mcTableStride mcTableExpand
      dsimp only []
      split <;> rfl
    have hA3 : (mcTableStrideRoutine t).used = t.used + mcTableStrideN := by
      unfold mcTableStrideRoutine
      dsimp only []
      rw [if_pos hused]
      unfold mcTableStride mcTableExpand
      dsimp only []
      split <;> rfl
    have hA4 : (mcTableStrideRoutine t).table =
        mcStrideLoop (t.size * 2 - 1) t.table (t.used - t.size * 2 / 2) t.used
          mcTableStrideN := by
      unfold mcTableStrideRoutine
      dsimp only []
      rw [if_pos hused]
      unfold mcTableStride mcTableExpand
      dsimp only []
      split <;> rfl
    have hsz2 : t.size * 2 = 2 ^ (k + 2) := by rw [hsz]; ring
    have hsrcA : t.used - t.size * 2 / 2 = t.used - 2 ^ (k + 1) := by
      rw [hsz2]
      omega
    have hplaceE : mcPlaced (2 ^ (k + 2)) (2 ^ (k + 1)) t.table := by
      have hp0 := hplace
      rw [hsz, huse] at hp0
      exact mcExpand_placed k t.table hp0
    have hloop := mcStrideLoop_placed (k + 1) 64 t.table (2 ^ (k + 1))
      (le_refl _) (by omega) hplaceE
    have hstride : mcTableStrideN = 64 := rfl
    refine ⟨?_, ?_, ?_⟩
    · rw [hA1, hA3, hA4, hsrcA, hsz2, huse, hstride]
      exact hloop.1
    · intro i e he
      have hmem := hloop.2 i e he
      have hidx : mcTableIndex (mcTableStrideRoutine t) (mcHash e.key) =
          mcIndexArith (2 ^ (k + 2)) (2 ^ (k + 1) + 64) (mcHash e.key) := by
        rw [mcTableIndex_arith (mcTableStrideRoutine t) (k + 1)
          (by rw [hA1, hsz2]) (by rw [hA2, hA1]), hA1, hA3, hsz2, huse, hstride]
      rw [hidx, hA4, hsrcA, hsz2, huse, hstride]
      exact hmem
    · refine ⟨k + 1, by omega, by rw [hA1, hsz2], by rw [hA2, hA1], ?_, ?_, ?_⟩
      · rw [hA1, hA3, hsz2, huse, hstride]
        omega
      · right
        rw [hA1, hA3, hsz2, huse, hstride]
        omega
      · rw [hA3, huse, hstride]
        omega
  · -- no expansion: stride within the current size
    have hge : t.used + 64 ≤ t.size := by
      rcases hhigh with h | h
      · exact absurd h hused
      · exact h
    have hlow' : 2 ^ k ≤ t.used := by
      rw [hsz] at hlow
      omega
    have hB1 : (mcTableStrideRoutine t).size = t.size := by
      unfold mcTableStrideRoutine
      dsimp only []
      rw [if_neg hused]
      unfold mcTableStride
      dsimp only []
      split <;> rfl
    have hB2 : (mcTableStrideRoutine t).mask = t.mask := by
      unfold mcTableStrideRoutine
      dsimp only []
      rw [if_neg hused]
      unfold mcTableStride
      dsimp only []
      split <;> rfl
    have hB3 : (mcTableStrideRoutine t).used = t.used + mcTableStrideN := by
      unfold mcTableStrideRoutine
      dsimp only []
      rw [if_neg hused]
      unfold mcTableStride
      dsimp only []
      split <;> rfl
    have hB4 : (mcTableStrideRoutine t).table =
        mcStrideLoop t.mask t.table (t.used - t.size / 2) t.used mcTableStrideN := by
      unfold mcTableStrideRoutine
      dsimp only []
      rw [if_neg hused]
      unfold mcTableStride
      dsimp only []
      split <;> rfl
    have hsz' : t.size / 2 = 2 ^ k := by rw [hsz]; omega
    have hplace' : mcPlaced (2 ^ (k + 1)) t.used t.table := by
      rw [← hsz]
      exact hplace
    have hloop := mcStrideLoop_placed k 64 t.table t.used hlow'
      (by rw [hsz] at hge; omega) hplace'
    have hstride : mcTableStrideN = 64 := rfl
    have hmask' : t.mask = 2 ^ (k + 1) - 1 := by rw [hmask, hsz]
    have hdvdsize : (64 : Nat) ∣ t.size := by
      rw [hsz, hSeq]
      exact Dvd.dvd.mul_left hdvd 2
    refine ⟨?_, ?_, ?_⟩
    · rw [hB1, hB3, hB4, hsz', hmask', hsz, hstride]
      exact hloop.1
    · intro i e he
      have hmem := hloop.2 i e he
      have hidx : mcTableIndex (mcTableStrideRoutine t) (mcHash e.key) =
          mcIndexArith (2 ^ (k + 1)) (t.used + 64) (mcHash e.key) := by
        rw [mcTableIndex_arith (mcTableStrideRoutine t) k
          (by rw [hB1, hsz]) (by rw [hB2, hB1, hmask]), hB1, hB3, hsz, hstride]
      rw [hidx, hB4, hmask', hsz', hstride]
      exact hmem
    · refine ⟨k, hk, by rw [hB1, hsz], by rw [hB2, hB1, hmask], ?_, ?_, ?_⟩
      · rw [hB1, hB3, hstride]
        omega
      · rw [hB1, hB3, hstride]
        rw [hstride] at halign
        omega
      · rw [hB3, hstride]
        rw [hstride] at halign
        omega

theorem mc_table_striding_preserves_index_witness :
    (({ mask := 8191, size := 8192, used := 4096, striding := true, nentries := 0, table := fun _ => [] } : MCTable).size = 2 ^ (12 + 1) ∧
     ({ mask := 8191, size := 8192, used := 4096, striding := true, nentries := 0, table := fun _ => [] } : MCTable).mask = ({ mask := 8191, size := 8192, used := 4096, striding := true, nentries := 0, table := fun _ => [] } : MCTable).size - 1 ∧
     (6 : Nat) ≤ 12 ∧
     ({ mask := 8191, size := 8192, used := 4096, striding := true, nentries := 0, table := fun _ => [] } : MCTable).size / 2 ≤ ({ mask := 8191, size := 8192, used := 4096, striding := true, nentries := 0, table := fun _ => [] } : MCTable).used ∧
     (({ mask := 8191, size := 8192, used := 4096, striding := true, nentries := 0, table := fun _ => [] } : MCTable).used = ({ mask := 8191, size := 8192, used := 4096, striding := true, nentries := 0, table := fun _ => [] } : MCTable).size ∨
      ({ mask := 8191, size := 8192, used := 4096, striding := true, nentries := 0, table := fun _ => [] } : MCTable).used + mcTableStrideN ≤ ({ mask := 8191, size := 8192, used := 4096, striding := true, nentries := 0, table := fun _ => [] } : MCTable).size) ∧
     ({ mask := 8191, size := 8192, used := 4096, striding := true, nentries := 0, table := fun _ => [] } : MCTable).used % mcTableStrideN = 0 ∧
     mcPlaced ({ mask := 8191, size := 8192, used := 4096, striding := true, nentries := 0, table := fun _ => [] } : MCTable).size ({ mask := 8191, size := 8192, used := 4096, striding := true, nentries := 0, table := fun _ => [] } : MCTable).used ({ mask := 8191, size := 8192, used := 4096, striding := true, nentries := 0, table := fun _ => [] } : MCTable).table) ∧
    ((∀ h, mcTableIndex { mask := 8191, size := 8192, used := 4096, striding := true, nentries := 0, table := fun _ => [] } h =
        mcIndexArith ({ mask := 8191, size := 8192, used := 4096, striding := true, nentries := 0, table := fun _ => [] } : MCTable).size ({ mask := 8191, size := 8192, used := 4096, striding := true, nentries := 0, table := fun _ => [] } : MCTable).used h) ∧
     mcPlaced (mcTableStrideRoutine { mask := 8191, size := 8192, used := 4096, striding := true, nentries := 0, table := fun _ => [] }).size (mcTableStrideRoutine { mask := 8191, size := 8192, used := 4096, striding := true, nentries := 0, table := fun _ => [] }).used (mcTableStrideRoutine { mask := 8191, size := 8192, used := 4096, striding := true, nentries := 0, table := fun _ => [] }).table ∧
     (∀ i e, e ∈ ({ mask := 8191, size := 8192, used := 4096, striding := true, nentries := 0, table := fun _ => [] } : MCTable).table i →
       e ∈ (mcTableStrideRoutine { mask := 8191, size := 8192, used := 4096, striding := true, nentries := 0, table := fun _ => [] }).table (mcTableIndex (mcTableStrideRoutine { mask := 8191, size := 8192, used := 4096, striding := true, nentries := 0, table := fun _ => [] }) (mcHash e.key))) ∧
     (∃ kN, 6 ≤ kN ∧ (mcTableStrideRoutine { mask := 8191, size := 8192, used := 4096, striding := true, nentries := 0, table := fun _ => [] }).size = 2 ^ (kN + 1) ∧
       (mcTableStrideRoutine { mask := 8191, size := 8192, used := 4096, striding := true, nentries := 0, table := fun _ => [] }).mask = (mcTableStrideRoutine { mask := 8191, size := 8192, used := 4096, striding := true, nentries := 0, table := fun _ => [] }).size - 1 ∧
       (mcTableStrideRoutine { mask := 8191, size := 8192, used := 4096, striding := true, nentries := 0, table := fun _ => [] }).size / 2 ≤ (mcTableStrideRoutine { mask := 8191, size := 8192, used := 4096, striding := true, nentries := 0, table := fun _ => [] }).used ∧
       ((mcTableStrideRoutine { mask := 8191, size := 8192, used := 4096, striding := true, nentries := 0, table := fun _ => [] }).used = (mcTableStrideRoutine { mask := 8191, size := 8192, used := 4096, striding := true, nentries := 0, table := fun _ => [] }).size ∨
        (mcTableStrideRoutine { mask := 8191, size := 8192, used := 4096, striding := true, nentries := 0, table := fun _ => [] }).used + mcTableStrideN ≤ (mcTableStrideRoutine { mask := 8191, size := 8192, used := 4096, striding := true, nentries := 0, table := fun _ => [] }).size) ∧
       (mcTableStrideRoutine { mask := 8191, size := 8192, used := 4096, striding := true, nentries := 0, table := fun _ => [] }).used % mcTableStrideN = 0)) :=
  have hplaceT : mcPlaced ({ mask := 8191, size := 8192, used := 4096, striding := true, nentries := 0, table := fun _ => [] } : MCTable).size ({ mask := 8191, size := 8192, used := 4096, striding := true, nentries := 0, table := fun _ => [] } : MCTable).used ({ mask := 8191, size := 8192, used := 4096, striding := true, nentries := 0, table := fun _ => [] } : MCTable).table :=
    fun _ e he => absurd he (List.not_mem_nil e)
  ⟨⟨by decide, by decide, by decide, by decide, by decide, by decide, hplaceT⟩,
   mc_table_striding_preserves_index { mask := 8191, size := 8192, used := 4096, striding := true, nentries := 0, table := fun _ => [] } 12
     (by decide) (by decide) (by decide) (by decide) (by decide) (by decide) hplaceT⟩

theorem mc_writer_transmits_ready_prefix_witness :
    mcCommandCreate.result = MCResult.NONE ∧
    ∃ n, mcWriterTransmitted
        { commands := [{ result := MCResult.REPLY ("STORED\r\n".toList) },
                       { result := MCResult.NONE }],
          quit := false } =
        ({ commands := [{ result := MCResult.REPLY ("STORED\r\n".toList) },
                        { result := MCResult.NONE }],
           quit := false } : MCConnState).commands.take n ∧
      (∀ c ∈ ({ commands := [{ result := MCResult.REPLY ("STORED\r\n".toList) },
                             { result := MCResult.NONE }],
                quit := false } : MCConnState).commands.take n,
        c.result ≠ MCResult.NONE) ∧
      mcWriterOutput
        { commands := [{ result := MCResult.REPLY ("STORED\r\n".toList) },
                       { result := MCResult.NONE }],
          quit := false } =
        ((({ commands := [{ result := MCResult.REPLY ("STORED\r\n".toList) },
                          { result := MCResult.NONE }],
             quit := false } : MCConnState).commands.take n).map
          (fun c => mcTransmitBuffer c.result)).flatten :=
  mc_writer_transmits_ready_prefix
    { commands := [{ result := MCResult.REPLY ("STORED\r\n".toList) },
                   { result := MCResult.NONE }],
      quit := false }
